import Mathlib

/-!
QuillPilot core — verification development.

Shallow embedding of the QuillPilot client core:

* the streaming event decoder of `aiService.generateContentStream` /
  `aiService.generateBlogPostStream` (src/unnamed/part_004),
* the markdown-with-frontmatter document codec of the `save-blog-post` /
  `load-blog-posts` IPC handlers (src/public/electron.js),
* the in-memory / localStorage document store of `App.saveBlogPost` /
  `App.deleteBlogPost` (src/src/App.js),
* provider and model resolution of `BlogEditor.handleAIGenerate`
  (src/src/components/BlogEditor.js) and
  `preferencesService.getBestModelForProvider`
  (src/src/services/preferencesService.js).

Text is modelled as `List Char` (named `Str`).  JavaScript string
operations (`split`, `slice`, `replace`, `startsWith`, ...) are embedded
as recursive functions on `Str` with JS semantics.  `JSON.parse` /
`JSON.stringify` are modelled by a small recursive-descent JSON codec
(`jsonParse` / `jsonStringify`) covering objects, arrays, strings with the
common escapes, integer numbers, booleans and null; fractional and
exponent number forms and `\u` escapes are outside the model, and every
theorem input stays inside the modelled subset.
-/

set_option maxRecDepth 8000

namespace QuillPilot

/-- Text, modelled as a list of characters. -/
abbrev Str : Type := List Char

/-- Characters of a Lean string literal. -/
def str (s : String) : Str := s.data

/-- Boolean prefix test (JS `String.prototype.startsWith`). -/
def isPre : Str → Str → Bool
  | [], _ => true
  | _ :: _, [] => false
  | a :: as, b :: bs => a == b && isPre as bs

/-- Boolean suffix test (JS `String.prototype.endsWith`). -/
def strEndsWith (suf s : Str) : Bool := isPre suf.reverse s.reverse

/-- First occurrence of `sep`: `some (before, after)`, or `none` when `sep`
does not occur.  Models the search step of JS `split` / `replace`. -/
def splitOnce (sep : Str) : Str → Option (Str × Str)
  | [] => none
  | c :: r =>
    if isPre sep (c :: r) then some ([], (c :: r).drop sep.length)
    else (splitOnce sep r).map (fun p => (c :: p.1, p.2))

theorem isPre_append_self (p r : Str) : isPre p (p ++ r) = true := by
  induction p with
  | nil => rfl
  | cons c cs ih => simp [isPre, ih]

theorem eq_append_drop_of_isPre :
    ∀ {p s : Str}, isPre p s = true → s = p ++ s.drop p.length := by
  intro p
  induction p with
  | nil => intro s _; simp
  | cons a as ih =>
    intro s h
    cases s with
    | nil => simp [isPre] at h
    | cons b bs =>
      simp only [isPre, Bool.and_eq_true, beq_iff_eq] at h
      obtain ⟨rfl, h2⟩ := h
      simpa using congrArg (a :: ·) (ih h2)

theorem splitOnce_some_parts {sep : Str} :
    ∀ {s a b : Str}, splitOnce sep s = some (a, b) → s = a ++ sep ++ b := by
  intro s
  induction s with
  | nil => intro a b h; simp [splitOnce] at h
  | cons c r ih =>
    intro a b h
    by_cases hp : isPre sep (c :: r) = true
    · simp only [splitOnce, hp, if_pos, Option.some.injEq, Prod.mk.injEq] at h
      obtain ⟨rfl, rfl⟩ := h
      simpa using eq_append_drop_of_isPre hp
    · rw [splitOnce, if_neg hp] at h
      cases hm : splitOnce sep r with
      | none => rw [hm] at h; simp at h
      | some p =>
        rw [hm] at h
        obtain ⟨a', b'⟩ := p
        simp only [Option.map_some', Option.some.injEq, Prod.mk.injEq] at h
        obtain ⟨rfl, rfl⟩ := h
        have := ih hm
        simp [this]

theorem splitOnce_length_lt {sep : Str} (hsep : sep ≠ []) :
    ∀ {s a b : Str}, splitOnce sep s = some (a, b) → b.length < s.length := by
  intro s a b h
  have hp := splitOnce_some_parts h
  subst hp
  cases sep with
  | nil => exact absurd rfl hsep
  | cons x xs => simp [List.length_append]; omega

/-- Fuel-indexed split loop; `jsSplit` supplies enough fuel that the
exhaustion arm is never reached. -/
def jsSplitAux (sep : Str) : Nat → Str → List Str
  | 0, s => [s]
  | fuel + 1, s =>
    match splitOnce sep s with
    | some (a, b) => a :: jsSplitAux sep fuel b
    | none => [s]

/-- JS `String.prototype.split(sep)` for a non-empty separator string. -/
def jsSplit (sep : Str) (s : Str) : List Str :=
  if sep = [] then [s] else jsSplitAux sep (s.length + 1) s

/-- JS `Array.prototype.join(sep)`. -/
def joinSep (sep : Str) : List Str → Str
  | [] => []
  | [x] => x
  | x :: y :: xs => x ++ sep ++ joinSep sep (y :: xs)

/-- JS `String.prototype.replace(pat, repl)` with a plain-string pattern:
replaces the first occurrence only. -/
def replaceFirst (pat repl s : Str) : Str :=
  match splitOnce pat s with
  | some (a, b) => a ++ repl ++ b
  | none => s

/-- `jsSplitAux` is independent of the fuel once it exceeds the input
length. -/
theorem jsSplitAux_fuel {sep : Str} (hsep : sep ≠ []) :
    ∀ (f g : Nat) (s : Str), s.length < f → s.length < g →
      jsSplitAux sep f s = jsSplitAux sep g s := by
  intro f
  induction f with
  | zero => intro g s hf; omega
  | succ f ihf =>
    intro g s hf hg
    cases g with
    | zero => omega
    | succ g =>
      rw [jsSplitAux, jsSplitAux]
      cases h : splitOnce sep s with
      | none => rfl
      | some p =>
        obtain ⟨a, b⟩ := p
        have hlt := splitOnce_length_lt hsep h
        exact congrArg (fun t => a :: t) (ihf g b (by omega) (by omega))

theorem jsSplit_eq_cons {sep s a b : Str} (hsep : sep ≠ [])
    (h : splitOnce sep s = some (a, b)) : jsSplit sep s = a :: jsSplit sep b := by
  have hlt := splitOnce_length_lt hsep h
  rw [jsSplit, jsSplit, if_neg hsep, if_neg hsep]
  conv_lhs => rw [jsSplitAux, h]
  exact congrArg (fun t => a :: t)
    (jsSplitAux_fuel hsep s.length (b.length + 1) b (by omega) (by omega))

theorem jsSplit_eq_single {sep s : Str} (hsep : sep ≠ [])
    (h : splitOnce sep s = none) : jsSplit sep s = [s] := by
  rw [jsSplit, if_neg hsep, jsSplitAux, h]

theorem jsSplit_never_nil (sep s : Str) : jsSplit sep s ≠ [] := by
  by_cases hsep : sep = []
  · rw [jsSplit, if_pos hsep]; simp
  · cases h : splitOnce sep s with
    | some p =>
      obtain ⟨a, b⟩ := p
      rw [jsSplit_eq_cons hsep h]
      simp
    | none =>
      rw [jsSplit_eq_single hsep h]
      simp

/-- `join (split s) = s`: JS split keeps every separator boundary. -/
theorem joinSep_jsSplit (sep : Str) : ∀ s : Str, joinSep sep (jsSplit sep s) = s := by
  intro s
  by_cases hsep : sep = []
  · rw [jsSplit, if_pos hsep]; simp [joinSep]
  · suffices h : ∀ (n : Nat) (s : Str), s.length = n →
        joinSep sep (jsSplit sep s) = s from h s.length s rfl
    intro n
    induction n using Nat.strong_induction_on with
    | _ n ih =>
      intro s hs
      cases h : splitOnce sep s with
      | none => rw [jsSplit_eq_single hsep h, joinSep]
      | some p =>
        obtain ⟨a, b⟩ := p
        have hparts := splitOnce_some_parts h
        have hlt := splitOnce_length_lt hsep h
        have hb := ih b.length (by omega) b rfl
        rw [jsSplit_eq_cons hsep h]
        cases hq : jsSplit sep b with
        | nil => exact absurd hq (jsSplit_never_nil sep b)
        | cons x xs =>
          rw [hq] at hb
          simp only [joinSep, hq]
          rw [hb, hparts]

/-- When the head character of `sep` does not occur in `l`, no occurrence of
`sep` can start inside `l`, so the first occurrence lies in the tail. -/
theorem splitOnce_append_of_not_mem {c : Char} {sep' : Str} :
    ∀ {l : Str} (t : Str), c ∉ l →
      splitOnce (c :: sep') (l ++ t) =
        (splitOnce (c :: sep') t).map (fun p => (l ++ p.1, p.2)) := by
  intro l
  induction l with
  | nil =>
    intro t _
    cases h : splitOnce (c :: sep') t with
    | none => simp [h]
    | some p => obtain ⟨a, b⟩ := p; simp [h]
  | cons x xs ih =>
    intro t hc
    have hx : x ≠ c := fun h => hc (h ▸ List.mem_cons_self x xs)
    have hxs : c ∉ xs := fun h => hc (List.mem_cons_of_mem x h)
    have hpre : isPre (c :: sep') (x :: (xs ++ t)) = false := by
      simp [isPre, BEq.beq]
      intro h
      exact absurd h.symm hx
    rw [List.cons_append, splitOnce, hpre]
    simp only [Bool.false_eq_true, if_false]
    rw [ih t hxs]
    cases h : splitOnce (c :: sep') t with
    | none => simp
    | some p => obtain ⟨a, b⟩ := p; simp

/-- The first occurrence of `sep` in `sep ++ r` is at position zero. -/
theorem splitOnce_self_append (sep r : Str) (hsep : sep ≠ []) :
    splitOnce sep (sep ++ r) = some ([], r) := by
  cases sep with
  | nil => exact absurd rfl hsep
  | cons c cs =>
    have hpre := isPre_append_self (c :: cs) r
    rw [List.cons_append] at hpre ⊢
    rw [splitOnce, hpre]
    simp only [if_pos]
    congr 1
    simp

/-- Splitting `l ++ sep ++ r` when no occurrence of `sep` starts inside
`l` yields `l` and one split step. -/
theorem splitOnce_none_of_not_mem {c : Char} {sep' : Str} (l : Str) (hc : c ∉ l) :
    splitOnce (c :: sep') l = none := by
  have h : splitOnce (c :: sep') (l ++ ([] : Str)) = (splitOnce (c :: sep') []).map
      (fun p => (l ++ p.1, p.2)) := splitOnce_append_of_not_mem [] hc
  simpa [splitOnce] using h

theorem jsSplit_append {c : Char} {sep' : Str} (l r : Str) (hc : c ∉ l) :
    jsSplit (c :: sep') (l ++ (c :: sep') ++ r) = l :: jsSplit (c :: sep') r := by
  have hsp : splitOnce (c :: sep') (l ++ (c :: sep') ++ r) = some (l, r) := by
    rw [List.append_assoc, splitOnce_append_of_not_mem ((c :: sep') ++ r) hc,
      splitOnce_self_append _ _ (by simp)]
    simp
  rw [jsSplit_eq_cons (by simp) hsp]

/-- Splitting a string that contains no occurrence of the separator head. -/
theorem jsSplit_of_not_mem {c : Char} {sep' : Str} (l : Str) (hc : c ∉ l) :
    jsSplit (c :: sep') l = [l] :=
  jsSplit_eq_single (by simp) (splitOnce_none_of_not_mem l hc)

/-- Splitting on a single character, the specialization of `jsSplit` used
for reasoning about `split('\n')` and `split('_')`. -/
def charSplit (c : Char) : Str → List Str
  | [] => [[]]
  | x :: r =>
    if x = c then [] :: charSplit c r
    else
      match charSplit c r with
      | [] => [[x]]
      | l :: ls => (x :: l) :: ls

theorem charSplit_never_nil (c : Char) : ∀ s : Str, charSplit c s ≠ [] := by
  intro s
  cases s with
  | nil => simp [charSplit]
  | cons x r =>
    rw [charSplit]
    by_cases hx : x = c
    · simp [hx]
    · simp only [hx, if_false]
      cases charSplit c r with
      | nil => simp
      | cons l ls => simp

theorem jsSplit_singleton (c : Char) : ∀ s : Str, jsSplit [c] s = charSplit c s := by
  suffices h : ∀ (n : Nat) (s : Str), s.length = n → jsSplit [c] s = charSplit c s from
    fun s => h s.length s rfl
  intro n
  induction n using Nat.strong_induction_on with
  | _ n ih =>
    intro s hs
    cases s with
    | nil =>
      rw [jsSplit_eq_single (by simp) (by rw [splitOnce])]
      rw [charSplit]
    | cons x r =>
      by_cases hx : x = c
      · subst hx
        have hsp : splitOnce [x] (x :: r) = some ([], r) := by
          simpa using splitOnce_self_append [x] r (by simp)
        rw [jsSplit_eq_cons (by simp) hsp, charSplit, if_pos rfl]
        subst hs
        exact congrArg (List.cons []) (ih r.length (by simp) r rfl)
      · have hpre : isPre [c] (x :: r) = false := by
          simp only [isPre, Bool.and_true]
          exact beq_false_of_ne (fun h => hx h.symm)
        have hrlen : r.length < n := by simp at hs; omega
        cases hm : splitOnce [c] r with
        | none =>
          have hsp : splitOnce [c] (x :: r) = none := by
            rw [splitOnce, hpre]; simp [hm]
          have hcr : charSplit c r = [r] := by
            rw [← ih r.length hrlen r rfl]
            exact jsSplit_eq_single (by simp) hm
          rw [jsSplit_eq_single (by simp) hsp, charSplit]
          simp [hx, hcr]
        | some p =>
          obtain ⟨a, b⟩ := p
          have hsp : splitOnce [c] (x :: r) = some (x :: a, b) := by
            rw [splitOnce, hpre]; simp [hm]
          have hcr : charSplit c r = a :: jsSplit [c] b := by
            rw [← ih r.length hrlen r rfl]
            exact jsSplit_eq_cons (by simp) hm
          rw [jsSplit_eq_cons (by simp) hsp, charSplit]
          simp [hx, hcr]

theorem charSplit_append {c : Char} {l : Str} (t : Str) (hc : c ∉ l) :
    charSplit c (l ++ c :: t) = l :: charSplit c t := by
  induction l with
  | nil => simp [charSplit]
  | cons x xs ih =>
    have hx : x ≠ c := fun h => hc (h ▸ List.mem_cons_self x xs)
    have hxs : c ∉ xs := fun h => hc (List.mem_cons_of_mem x h)
    rw [List.cons_append, charSplit]
    simp only [hx, if_false]
    rw [ih hxs]

theorem charSplit_of_not_mem {c : Char} {l : Str} (hc : c ∉ l) :
    charSplit c l = [l] := by
  induction l with
  | nil => simp [charSplit]
  | cons x xs ih =>
    have hx : x ≠ c := fun h => hc (h ▸ List.mem_cons_self x xs)
    have hxs : c ∉ xs := fun h => hc (List.mem_cons_of_mem x h)
    rw [charSplit]
    simp only [hx, if_false]
    rw [ih hxs]

theorem two_le_length_charSplit_append {c : Char} (b : Str) :
    ∀ a : Str, 2 ≤ (charSplit c (a ++ c :: b)).length := by
  intro a
  induction a with
  | nil =>
    rw [List.nil_append, charSplit, if_pos rfl]
    have h1 : 0 < (charSplit c b).length :=
      List.length_pos.mpr (charSplit_never_nil c b)
    simp only [List.length_cons]
    omega
  | cons w ws ihw =>
    rw [List.cons_append, charSplit]
    by_cases hw : w = c
    · rw [if_pos hw]
      simp only [List.length_cons]
      omega
    · simp only [hw, if_false]
      cases hq : charSplit c (ws ++ c :: b) with
      | nil => exact absurd hq (charSplit_never_nil c _)
      | cons z zs =>
        rw [hq] at ihw
        simpa using ihw

theorem getLastD_charSplit_append {c : Char} (d : Str) :
    ∀ (a : Str) (b : Str), (charSplit c (a ++ c :: b)).getLastD d =
      (charSplit c b).getLastD d := by
  intro a
  induction a with
  | nil =>
    intro b
    rw [List.nil_append, charSplit]
    simp only [if_pos rfl]
    cases h : charSplit c b with
    | nil => exact absurd h (charSplit_never_nil c b)
    | cons y ys => simp
  | cons x xs ih =>
    intro b
    rw [List.cons_append, charSplit]
    by_cases hx : x = c
    · simp only [hx, if_pos rfl]
      cases h : charSplit c (xs ++ c :: b) with
      | nil => exact absurd h (charSplit_never_nil c _)
      | cons y ys =>
        have := ih b
        rw [h] at this
        simpa using this
    · simp only [hx, if_false]
      cases h : charSplit c (xs ++ c :: b) with
      | nil => exact absurd h (charSplit_never_nil c _)
      | cons y ys =>
        have hlen : 2 ≤ (charSplit c (xs ++ c :: b)).length :=
          two_le_length_charSplit_append b xs
        rw [h] at hlen
        have hys : ys ≠ [] := by
          intro hn
          rw [hn] at hlen
          simp at hlen
        have := ih b
        rw [h] at this
        cases ys with
        | nil => exact absurd rfl hys
        | cons z zs => simpa using this

/-- JS `value.replace(/^"|"$/g, '')`: strip at most one leading and one
trailing double quote. -/
def stripQuotes (s : Str) : Str :=
  let s1 := if s.head? = some '"' then s.tail else s
  if s1.getLast? = some '"' then s1.dropLast else s1

/-- Lexicographic order on text; ISO-8601 timestamps compare
chronologically under it. -/
def strLe : Str → Str → Bool
  | [], _ => true
  | _ :: _, [] => false
  | a :: as, b :: bs => if a = b then strLe as bs else decide (a < b)

def lbrace : Char := Char.ofNat 123

def rbrace : Char := Char.ofNat 125

/-- JSON values, the model of what `JSON.parse` returns and
`JSON.stringify` consumes.  Numbers are modelled as integers; fractional
and exponent literals are outside the model (no theorem input uses
them). -/
inductive Json where
  | null : Json
  | bool (b : Bool) : Json
  | num (n : Int) : Json
  | str (s : Str) : Json
  | arr (elems : List Json) : Json
  | obj (members : List (Str × Json)) : Json
deriving Repr

mutual

def jsonDecEq : (a b : Json) → Decidable (a = b)
  | .null, .null => isTrue rfl
  | .bool a, .bool b =>
    match decEq a b with
    | isTrue h => isTrue (h ▸ rfl)
    | isFalse h => isFalse (fun he => h (Json.bool.inj he))
  | .num a, .num b =>
    match decEq a b with
    | isTrue h => isTrue (h ▸ rfl)
    | isFalse h => isFalse (fun he => h (Json.num.inj he))
  | .str a, .str b =>
    match decEq a b with
    | isTrue h => isTrue (h ▸ rfl)
    | isFalse h => isFalse (fun he => h (Json.str.inj he))
  | .arr a, .arr b =>
    match jsonListDecEq a b with
    | isTrue h => isTrue (h ▸ rfl)
    | isFalse h => isFalse (fun he => h (Json.arr.inj he))
  | .obj a, .obj b =>
    match jsonMembersDecEq a b with
    | isTrue h => isTrue (h ▸ rfl)
    | isFalse h => isFalse (fun he => h (Json.obj.inj he))
  | .null, .bool _ => isFalse (fun h => Json.noConfusion h)
  | .null, .num _ => isFalse (fun h => Json.noConfusion h)
  | .null, .str _ => isFalse (fun h => Json.noConfusion h)
  | .null, .arr _ => isFalse (fun h => Json.noConfusion h)
  | .null, .obj _ => isFalse (fun h => Json.noConfusion h)
  | .bool _, .null => isFalse (fun h => Json.noConfusion h)
  | .bool _, .num _ => isFalse (fun h => Json.noConfusion h)
  | .bool _, .str _ => isFalse (fun h => Json.noConfusion h)
  | .bool _, .arr _ => isFalse (fun h => Json.noConfusion h)
  | .bool _, .obj _ => isFalse (fun h => Json.noConfusion h)
  | .num _, .null => isFalse (fun h => Json.noConfusion h)
  | .num _, .bool _ => isFalse (fun h => Json.noConfusion h)
  | .num _, .str _ => isFalse (fun h => Json.noConfusion h)
  | .num _, .arr _ => isFalse (fun h => Json.noConfusion h)
  | .num _, .obj _ => isFalse (fun h => Json.noConfusion h)
  | .str _, .null => isFalse (fun h => Json.noConfusion h)
  | .str _, .bool _ => isFalse (fun h => Json.noConfusion h)
  | .str _, .num _ => isFalse (fun h => Json.noConfusion h)
  | .str _, .arr _ => isFalse (fun h => Json.noConfusion h)
  | .str _, .obj _ => isFalse (fun h => Json.noConfusion h)
  | .arr _, .null => isFalse (fun h => Json.noConfusion h)
  | .arr _, .bool _ => isFalse (fun h => Json.noConfusion h)
  | .arr _, .num _ => isFalse (fun h => Json.noConfusion h)
  | .arr _, .str _ => isFalse (fun h => Json.noConfusion h)
  | .arr _, .obj _ => isFalse (fun h => Json.noConfusion h)
  | .obj _, .null => isFalse (fun h => Json.noConfusion h)
  | .obj _, .bool _ => isFalse (fun h => Json.noConfusion h)
  | .obj _, .num _ => isFalse (fun h => Json.noConfusion h)
  | .obj _, .str _ => isFalse (fun h => Json.noConfusion h)
  | .obj _, .arr _ => isFalse (fun h => Json.noConfusion h)

def jsonListDecEq : (a b : List Json) → Decidable (a = b)
  | [], [] => isTrue rfl
  | [], _ :: _ => isFalse (fun h => List.noConfusion h)
  | _ :: _, [] => isFalse (fun h => List.noConfusion h)
  | x :: xs, y :: ys =>
    match jsonDecEq x y with
    | isTrue h1 =>
      match jsonListDecEq xs ys with
      | isTrue h2 => isTrue (h1 ▸ h2 ▸ rfl)
      | isFalse h2 => isFalse (fun he => h2 (List.tail_eq_of_cons_eq he))
    | isFalse h1 => isFalse (fun he => h1 (List.head_eq_of_cons_eq he))

def jsonMembersDecEq : (a b : List (Str × Json)) → Decidable (a = b)
  | [], [] => isTrue rfl
  | [], _ :: _ => isFalse (fun h => List.noConfusion h)
  | _ :: _, [] => isFalse (fun h => List.noConfusion h)
  | (k1, v1) :: xs, (k2, v2) :: ys =>
    match decEq k1 k2 with
    | isTrue hk =>
      match jsonDecEq v1 v2 with
      | isTrue hv =>
        match jsonMembersDecEq xs ys with
        | isTrue h2 => isTrue (hk ▸ hv ▸ h2 ▸ rfl)
        | isFalse h2 => isFalse (fun he => h2 (List.tail_eq_of_cons_eq he))
      | isFalse hv =>
        isFalse (fun he => hv (congrArg Prod.snd (List.head_eq_of_cons_eq he)))
    | isFalse hk =>
      isFalse (fun he => hk (congrArg Prod.fst (List.head_eq_of_cons_eq he)))

end

instance : DecidableEq Json := jsonDecEq

/-- JS truthiness of a JSON value. -/
def jsTruthy : Json → Bool
  | .null => false
  | .bool b => b
  | .num n => n != 0
  | .str s => !s.isEmpty
  | .arr _ => true
  | .obj _ => true

/-- JS property access `value[key]`: `none` models `undefined`. -/
def jGet (j : Json) (k : Str) : Option Json :=
  match j with
  | .obj ms => (ms.find? (fun m => m.1 == k)).map (fun m => m.2)
  | _ => none

/-- JS `v || d` on an optional JSON value (`none` is `undefined`). -/
def jsOrElse (v : Option Json) (d : Json) : Json :=
  match v with
  | some j => if jsTruthy j then j else d
  | none => d

def hexDigit (n : Nat) : Char :=
  if n < 10 then Char.ofNat (48 + n) else Char.ofNat (87 + n)

/-- `JSON.stringify` escaping of one character inside a string literal. -/
def escapeChar (c : Char) : Str :=
  if c = '"' then ['\\', '"']
  else if c = '\\' then ['\\', '\\']
  else if c = '\n' then ['\\', 'n']
  else if c = '\t' then ['\\', 't']
  else if c = '\r' then ['\\', 'r']
  else if c = Char.ofNat 8 then ['\\', 'b']
  else if c = Char.ofNat 12 then ['\\', 'f']
  else if c.toNat < 32 then
    ['\\', 'u', '0', '0', hexDigit (c.toNat / 16), hexDigit (c.toNat % 16)]
  else [c]

/-- `JSON.stringify` of a string value. -/
def encodeStr (s : Str) : Str := '"' :: (s.map escapeChar).flatten ++ ['"']

def numToStr (n : Int) : Str := (toString n).data

mutual

/-- Model of `JSON.stringify` (no indentation argument). -/
def jsonStringify : Json → Str
  | .null => str "null"
  | .bool true => str "true"
  | .bool false => str "false"
  | .num n => numToStr n
  | .str s => encodeStr s
  | .arr es => '[' :: stringifyElems es ++ [']']
  | .obj ms => lbrace :: stringifyMembers ms ++ [rbrace]

def stringifyElems : List Json → Str
  | [] => []
  | [e] => jsonStringify e
  | e :: e2 :: es => jsonStringify e ++ ',' :: stringifyElems (e2 :: es)

def stringifyMembers : List (Str × Json) → Str
  | [] => []
  | [(k, v)] => encodeStr k ++ ':' :: jsonStringify v
  | (k, v) :: m :: ms =>
    encodeStr k ++ ':' :: jsonStringify v ++ ',' :: stringifyMembers (m :: ms)

end

def isWsChar (c : Char) : Bool := c = ' ' || c = '\t' || c = '\n' || c = '\r'

def skipWs : Str → Str
  | [] => []
  | c :: r => if isWsChar c then skipWs r else c :: r

/-- Inverse of `escapeChar` on the single character after a backslash;
`\u` escapes are outside the model. -/
def unescapeChar (c : Char) : Option Char :=
  if c = '"' then some '"'
  else if c = '\\' then some '\\'
  else if c = '/' then some '/'
  else if c = 'n' then some '\n'
  else if c = 't' then some '\t'
  else if c = 'r' then some '\r'
  else if c = 'b' then some (Char.ofNat 8)
  else if c = 'f' then some (Char.ofNat 12)
  else none

/-- Parse the body of a JSON string literal (after the opening quote),
returning the decoded characters and the text after the closing quote. -/
def pStr : Str → Option (Str × Str)
  | [] => none
  | c :: r =>
    if c = '"' then some ([], r)
    else if c = '\\' then
      match r with
      | [] => none
      | e :: r' =>
        match unescapeChar e with
        | some ce => (pStr r').map (fun p => (ce :: p.1, p.2))
        | none => none
    else if c.toNat < 32 then none
    else (pStr r).map (fun p => (c :: p.1, p.2))

def digitVal (c : Char) : Nat := c.toNat - 48

def takeDigits : Str → (Str × Str)
  | [] => ([], [])
  | c :: r =>
    if c.isDigit then
      let p := takeDigits r
      (c :: p.1, p.2)
    else ([], c :: r)

def digitsToNat (ds : Str) : Nat := ds.foldl (fun acc c => acc * 10 + digitVal c) 0

/-- Parse a JSON integer literal (fractions/exponents outside the model). -/
def pNum (s : Str) : Option (Json × Str) :=
  let sgn := match s with
    | '-' :: r => (true, r)
    | _ => (false, s)
  match sgn.2 with
  | [] => none
  | c :: r =>
    if c = '0' then some (.num 0, r)
    else if c.isDigit then
      let p := takeDigits r
      let v : Int := Int.ofNat (digitsToNat (c :: p.1))
      some (.num (if sgn.1 then -v else v), p.2)
    else none

mutual

/-- Recursive-descent JSON value parse, fuel-indexed. -/
def pVal : Nat → Str → Option (Json × Str)
  | 0, _ => none
  | fuel + 1, s =>
    match skipWs s with
    | [] => none
    | c :: r =>
      if c = lbrace then
        match skipWs r with
        | c2 :: r2 =>
          if c2 = rbrace then some (.obj [], r2)
          else (pMembers fuel (c2 :: r2)).map (fun p => (Json.obj p.1, p.2))
        | [] => none
      else if c = '[' then
        match skipWs r with
        | c2 :: r2 =>
          if c2 = ']' then some (.arr [], r2)
          else (pElems fuel (c2 :: r2)).map (fun p => (Json.arr p.1, p.2))
        | [] => none
      else if c = '"' then (pStr r).map (fun p => (Json.str p.1, p.2))
      else if c = 't' then
        if isPre (str "rue") r then some (.bool true, r.drop 3) else none
      else if c = 'f' then
        if isPre (str "alse") r then some (.bool false, r.drop 4) else none
      else if c = 'n' then
        if isPre (str "ull") r then some (.null, r.drop 3) else none
      else if c = '-' || c.isDigit then pNum (c :: r)
      else none

/-- Parse the elements of a non-empty JSON array up to `]`. -/
def pElems : Nat → Str → Option (List Json × Str)
  | 0, _ => none
  | fuel + 1, s =>
    match pVal fuel s with
    | none => none
    | some (v, rest) =>
      match skipWs rest with
      | ',' :: r2 => (pElems fuel r2).map (fun p => (v :: p.1, p.2))
      | ']' :: r2 => some ([v], r2)
      | _ => none

/-- Parse the members of a non-empty JSON object up to the closing brace. -/
def pMembers : Nat → Str → Option (List (Str × Json) × Str)
  | 0, _ => none
  | fuel + 1, s =>
    match skipWs s with
    | [] => none
    | c :: r =>
      if c = '"' then
        match pStr r with
        | none => none
        | some (k, rest) =>
          match skipWs rest with
          | ':' :: r2 =>
            match pVal fuel r2 with
            | none => none
            | some (v, rest2) =>
              match skipWs rest2 with
              | ',' :: r3 => (pMembers fuel r3).map (fun p => ((k, v) :: p.1, p.2))
              | c4 :: r3 =>
                if c4 = rbrace then some ([(k, v)], r3) else none
              | [] => none
          | _ => none
      else none

end

/-- Model of `JSON.parse`: parse one value, then require only trailing
whitespace.  `none` models a thrown `SyntaxError`. -/
def jsonParse (s : Str) : Option Json :=
  match pVal (s.length + 1) s with
  | some (v, rest) => if skipWs rest = [] then some v else none
  | none => none

example : jsonParse (str "\x7b\"content\":\"ab\"\x7d") =
    some (Json.obj [(str "content", Json.str (str "ab"))]) := by decide

example : jsonParse (str "\x7b\"done\":true\x7d") =
    some (Json.obj [(str "done", Json.bool true)]) := by decide

example : jsonParse (str "\x7b\"content") = none := by decide

example : jsonParse (str "2024-06-01T10:00:00.000Z") = none := by decide

example : jsonParse (str "[\"a\",\"b\"]") =
    some (Json.arr [Json.str (str "a"), Json.str (str "b")]) := by decide

example : jsonParse (str "draft") = none := by decide

example : jsonParse [] = none := by decide

example : jsonStringify (Json.arr [Json.str (str "a"), Json.str (str "b")]) =
    str "[\"a\",\"b\"]" := by decide

/-! ## Stream frame decoding

Embedding of the chunk loops of `aiService.generateContentStream`
(src/unnamed/part_004 lines 159-202) and
`aiService.generateBlogPostStream` (lines 204-276).  The transport is
modelled as the list of text chunks produced by successive
`reader.read()` calls; the observable behaviour is the sequence of
callback invocations. -/

/-- One observable callback invocation of a streaming generation. -/
inductive CbEvent where
  | chunk (v : Json)
  | complete
  | error (v : Json)
deriving DecidableEq, Repr

/-- What one line of a chunk does inside the `for (const line of lines)`
loop: nothing, a fragment callback, or a terminal callback followed by
`return`. -/
inductive LineAct where
  | skip
  | frag (v : Json)
  | err (v : Json)
  | done
deriving DecidableEq, Repr

/-- JS truthiness of a possibly-`undefined` value. -/
def optTruthy : Option Json → Bool
  | some j => jsTruthy j
  | none => false

/-- Per-line behaviour: prefix test `line.startsWith('data: ')`,
`JSON.parse(line.slice(6))` (parse failure is logged and skipped), then
the `data.error` / `data.done` / `data.content` truthiness checks in
source order. -/
def lineAct (line : Str) : LineAct :=
  if isPre (str "data: ") line then
    match jsonParse (line.drop 6) with
    | none => .skip
    | some d =>
      if optTruthy (jGet d (str "error")) then .err ((jGet d (str "error")).getD .null)
      else if optTruthy (jGet d (str "done")) then .done
      else if optTruthy (jGet d (str "content")) then
        .frag ((jGet d (str "content")).getD .null)
      else .skip
  else .skip

/-- The `for (const line of lines)` loop over one chunk's lines:
returns the events emitted and whether a terminal line caused an early
`return` from the whole function. -/
def processChunkLines : List Str → List CbEvent × Bool
  | [] => ([], false)
  | l :: ls =>
    match lineAct l with
    | .err e => ([.error e], true)
    | .done => ([.complete], true)
    | .frag v =>
      let p := processChunkLines ls
      (.chunk v :: p.1, p.2)
    | .skip => processChunkLines ls

/-- The `while (true)` reader loop shared by both streaming methods:
each chunk is split on newline and its lines processed; a terminal line
returns immediately, and reader exhaustion (`done`) breaks the loop. -/
def runReaderLoop : List Str → List CbEvent
  | [] => []
  | c :: cs =>
    match processChunkLines (jsSplit (str "\n") c) with
    | (es, true) => es
    | (es, false) => es ++ runReaderLoop cs

/-- Callback invocations of `generateContentStream` over a successfully
opened transport delivering `chunks` and then closing: its `finally`
block only releases the reader lock, so loop exhaustion emits no
terminal callback. -/
def generateContentStreamEvents (chunks : List Str) : List CbEvent :=
  runReaderLoop chunks

/-- Callback invocations of `generateBlogPostStream` over the same
transport model: its `finally` block runs `onComplete()` on every
non-throwing exit of the `try` block — both after an early `return` and
after loop exhaustion. -/
def generateBlogPostStreamEvents (chunks : List Str) : List CbEvent :=
  runReaderLoop chunks ++ [.complete]

/-- The three protocol frames of the C1 stream-framing scenario. -/
def frameAb : Str := str "data: \x7b\"content\":\"ab\"\x7d\n"

def frameCd : Str := str "data: \x7b\"content\":\"cd\"\x7d\n"

def frameDone : Str := str "data: \x7b\"done\":true\x7d\n"

/-- The event sequence the C1 claim expects. -/
def expectedAbCdDone : List CbEvent :=
  [.chunk (.str (str "ab")), .chunk (.str (str "cd")), .complete]

example :
    generateContentStreamEvents [frameAb, frameCd, frameDone] = expectedAbCdDone := by
  decide

example :
    generateContentStreamEvents [frameAb ++ frameCd ++ frameDone] = expectedAbCdDone := by
  decide

example :
    generateContentStreamEvents
      [str "data: \x7b\"content", str "\":\"ab\"\x7d\n" ++ frameCd ++ frameDone] =
      [.chunk (.str (str "cd")), .complete] := by
  decide

example :
    generateBlogPostStreamEvents [frameDone] = [.complete, .complete] := by
  decide

example : generateContentStreamEvents [] = [] := by decide

/-- Whether a callback invocation is terminal (`onComplete` or `onError`). -/
def isTerminal : CbEvent → Bool
  | .complete => true
  | .error _ => true
  | .chunk _ => false

/-- The events the reader loop still owes for each pending suffix of the
three C1 frames. -/
def remEvents (fs : List Str) : List CbEvent :=
  if fs = [frameAb, frameCd, frameDone] then expectedAbCdDone
  else if fs = [frameCd, frameDone] then [.chunk (.str (str "cd")), .complete]
  else if fs = [frameDone] then [.complete]
  else []

theorem runReaderLoop_frameGroups :
    ∀ (g : List (List Str)) (fs : List Str),
      fs = [frameAb, frameCd, frameDone] ∨ fs = [frameCd, frameDone] ∨
        fs = [frameDone] →
      g.flatten = fs →
      runReaderLoop (g.map List.flatten) = remEvents fs := by
  intro g
  induction g with
  | nil =>
    intro fs hfs hj
    simp only [List.flatten_nil] at hj
    rcases hfs with rfl | rfl | rfl <;> exact absurd hj.symm (by simp)
  | cons c g' ih =>
    intro fs hfs hj
    rw [List.flatten_cons] at hj
    rw [List.map_cons, runReaderLoop]
    rcases hfs with rfl | rfl | rfl
    · rcases c with _ | ⟨a, _ | ⟨b, _ | ⟨d, _ | ⟨e, c'⟩⟩⟩⟩
      · rw [show processChunkLines (jsSplit (str "\n") (List.flatten
            ([] : List Str))) = ([], false) from by decide]
        simp only [List.flatten_nil, List.nil_append] at hj
        rw [ih _ (Or.inl rfl) hj]
        decide
      · simp only [List.flatten_cons, List.flatten_nil, List.append_nil,
          List.cons_append, List.nil_append, List.cons.injEq] at hj
        obtain ⟨rfl, hj'⟩ := hj
        rw [show processChunkLines (jsSplit (str "\n") (List.flatten [frameAb])) =
            ([.chunk (.str (str "ab"))], false) from by decide]
        rw [ih _ (Or.inr (Or.inl rfl)) hj']
        decide
      · simp only [List.flatten_cons, List.flatten_nil, List.append_nil,
          List.cons_append, List.nil_append, List.cons.injEq, List.append_assoc] at hj
        obtain ⟨rfl, rfl, hj'⟩ := hj
        rw [show processChunkLines (jsSplit (str "\n")
              (List.flatten [frameAb, frameCd])) =
            ([.chunk (.str (str "ab")), .chunk (.str (str "cd"))], false) from by
          decide]
        rw [ih _ (Or.inr (Or.inr rfl)) hj']
        decide
      · simp only [List.flatten_cons, List.flatten_nil, List.append_nil,
          List.cons_append, List.nil_append, List.cons.injEq, List.append_assoc] at hj
        obtain ⟨rfl, rfl, rfl, hj'⟩ := hj
        rw [show processChunkLines (jsSplit (str "\n")
              (List.flatten [frameAb, frameCd, frameDone])) =
            (expectedAbCdDone, true) from by decide]
        show expectedAbCdDone = remEvents [frameAb, frameCd, frameDone]
        decide
      · exfalso
        have hlen := congrArg List.length hj
        simp only [List.length_append, List.length_cons, List.length_nil] at hlen
        omega
    · rcases c with _ | ⟨a, _ | ⟨b, _ | ⟨d, c'⟩⟩⟩
      · rw [show processChunkLines (jsSplit (str "\n") (List.flatten
            ([] : List Str))) = ([], false) from by decide]
        simp only [List.flatten_nil, List.nil_append] at hj
        rw [ih _ (Or.inr (Or.inl rfl)) hj]
        decide
      · simp only [List.flatten_cons, List.flatten_nil, List.append_nil,
          List.cons_append, List.nil_append, List.cons.injEq] at hj
        obtain ⟨rfl, hj'⟩ := hj
        rw [show processChunkLines (jsSplit (str "\n") (List.flatten [frameCd])) =
            ([.chunk (.str (str "cd"))], false) from by decide]
        rw [ih _ (Or.inr (Or.inr rfl)) hj']
        decide
      · simp only [List.flatten_cons, List.flatten_nil, List.append_nil,
          List.cons_append, List.nil_append, List.cons.injEq, List.append_assoc] at hj
        obtain ⟨rfl, rfl, hj'⟩ := hj
        rw [show processChunkLines (jsSplit (str "\n")
              (List.flatten [frameCd, frameDone])) =
            ([.chunk (.str (str "cd")), .complete], true) from by decide]
        show [CbEvent.chunk (.str (str "cd")), .complete] = remEvents [frameCd, frameDone]
        decide
      · exfalso
        have hlen := congrArg List.length hj
        simp only [List.length_append, List.length_cons, List.length_nil] at hlen
        omega
    · rcases c with _ | ⟨a, _ | ⟨b, c'⟩⟩
      · rw [show processChunkLines (jsSplit (str "\n") (List.flatten
            ([] : List Str))) = ([], false) from by decide]
        simp only [List.flatten_nil, List.nil_append] at hj
        rw [ih _ (Or.inr (Or.inr rfl)) hj]
        decide
      · simp only [List.flatten_cons, List.flatten_nil, List.append_nil,
          List.cons_append, List.nil_append, List.cons.injEq] at hj
        obtain ⟨rfl, hj'⟩ := hj
        rw [show processChunkLines (jsSplit (str "\n") (List.flatten [frameDone])) =
            ([.complete], true) from by decide]
        show [CbEvent.complete] = remEvents [frameDone]
        decide
      · exfalso
        have hlen := congrArg List.length hj
        simp only [List.length_append, List.length_cons, List.length_nil] at hlen
        omega

/-- C1 (counterexample). The claim "the streaming parser emits exactly
Fragment(ab), Fragment(cd), Done regardless of where the chunk
boundaries fall (a line split across two chunks is still parsed)" is
false at a concrete chunking: splitting the first frame after
`data: {"content` loses Fragment(ab), because `generateContentStream`
splits each chunk on newline with no pending-line buffer.  The two
chunks concatenate to exactly the three frames, yet the emitted events
are Fragment(cd), Done. -/
theorem claim_C1_counterexample :
    (str "data: \x7b\"content" ++ (str "\":\"ab\"\x7d\n" ++ frameCd ++ frameDone) =
      frameAb ++ frameCd ++ frameDone) ∧
    generateContentStreamEvents
        [str "data: \x7b\"content", str "\":\"ab\"\x7d\n" ++ frameCd ++ frameDone] =
      [.chunk (.str (str "cd")), .complete] ∧
    generateContentStreamEvents
        [str "data: \x7b\"content", str "\":\"ab\"\x7d\n" ++ frameCd ++ frameDone] ≠
      expectedAbCdDone := by
  refine ⟨by decide, by decide, by decide⟩

/-- C1 (amended). For every sequence of chunks whose concatenation is
the three frames `data: {"content":"ab"}\n`, `data: {"content":"cd"}\n`,
`data: {"done":true}\n` and in which every chunk is a concatenation of
whole frames (chunk boundaries fall at frame boundaries), the streaming
parser of `generateContentStream` emits exactly the events
Fragment("ab"), Fragment("cd"), Done, in that order.  A frame split
across two chunks is instead dropped (see the counterexample). -/
theorem claim_C1_frame_boundary_chunking (g : List (List Str))
    (h : g.flatten = [frameAb, frameCd, frameDone]) :
    generateContentStreamEvents (g.map List.flatten) = expectedAbCdDone := by
  have hr := runReaderLoop_frameGroups g _ (Or.inl rfl) h
  rw [generateContentStreamEvents, hr]
  decide

/-- Witness for C1 (amended): the three frames delivered as two chunks
split at a frame boundary produce exactly the expected events. -/
theorem claim_C1_frame_boundary_chunking_witness :
    generateContentStreamEvents
        ([[frameAb], [frameCd, frameDone]].map List.flatten) = expectedAbCdDone :=
  claim_C1_frame_boundary_chunking [[frameAb], [frameCd, frameDone]] (by decide)

/-- C2 (code bug evaluation). The claim "exactly one of
onComplete/onError is invoked, exactly once — transport close without a
done/error frame is treated as completion" fails on both streaming
methods: `generateBlogPostStream`'s `finally` block calls `onComplete()`
even after the done-frame handler already called it (two onComplete
invocations for a stream ending in an explicit done frame), and
`generateContentStream` invokes no terminal callback at all when the
transport closes without a done/error frame. -/
theorem claim_C2_terminal_callback_evaluation :
    generateBlogPostStreamEvents [frameDone] = [.complete, .complete] ∧
    ((generateBlogPostStreamEvents [frameDone]).filter isTerminal).length = 2 ∧
    generateContentStreamEvents [] = [] ∧
    ((generateContentStreamEvents []).filter isTerminal).length = 0 := by
  refine ⟨by decide, by decide, by decide, by decide⟩

/-! ## Document codec and durable store

Embedding of the `save-blog-post` handler (src/public/electron.js lines
281-319) and the `load-blog-posts` handler (lines 337-398).  The durable
store is modelled as an association list of `(filename, file text)`;
directory provisioning and `fs` errors are outside the pure model (the
per-file `catch` in `load-blog-posts` only fires on `fs` read errors). -/

/-- A blog post as built by `App.handleNewBlogPost` (src/src/App.js):
all fields present, `seoKeywords` a string array.  The `|| []` / `|| ''`
defaults in `save-blog-post` only normalize absent fields and are
identities on this representation. -/
structure Post where
  id : Str
  title : Str
  content : Str
  createdAt : Str
  updatedAt : Str
  seoKeywords : List Str
  metaDescription : Str
  status : Str
deriving DecidableEq, Repr

/-- `post.title.replace(/[^a-z0-9]/gi, '_').toLowerCase() || 'untitled'`:
keep ASCII alphanumerics (lower-cased), replace everything else by `_`;
an empty result (empty title) falls back to `untitled`. -/
def sanitizeTitle (t : Str) : Str :=
  let s := t.map (fun c => if c.isAlpha || c.isDigit then c.toLower else '_')
  if s.isEmpty then str "untitled" else s

/-- `` `${safeTitle}_${post.id}.md` ``. -/
def fileNameFor (p : Post) : Str :=
  sanitizeTitle p.title ++ str "_" ++ p.id ++ str ".md"

/-- One line of the frontmatter template per metadata field. -/
def fmTitleLine (p : Post) : Str := str "title: \"" ++ p.title ++ str "\""

def fmCreatedLine (p : Post) : Str := str "createdAt: \"" ++ p.createdAt ++ str "\""

def fmUpdatedLine (p : Post) : Str := str "updatedAt: \"" ++ p.updatedAt ++ str "\""

def fmStatusLine (p : Post) : Str := str "status: \"" ++ p.status ++ str "\""

def fmKeywordsLine (p : Post) : Str :=
  str "seoKeywords: " ++ jsonStringify (Json.arr (p.seoKeywords.map Json.str))

def fmMetaDescLine (p : Post) : Str :=
  str "metaDescription: \"" ++ p.metaDescription ++ str "\""

/-- The six newline-joined `key: value` lines of the template. -/
def frontmatterOf (p : Post) : Str :=
  fmTitleLine p ++ str "\n" ++ fmCreatedLine p ++ str "\n" ++ fmUpdatedLine p ++
  str "\n" ++ fmStatusLine p ++ str "\n" ++ fmKeywordsLine p ++ str "\n" ++
  fmMetaDescLine p

/-- The markdown file text written by `save-blog-post`: a `---`-delimited
frontmatter block, a blank line, the body, and a trailing newline.  The
`id` field is not written. -/
def encodePost (p : Post) : Str :=
  str "---\n" ++ frontmatterOf p ++ str "\n---\n" ++
  (str "\n" ++ p.content ++ str "\n")

/-- The regex `/^---\n([\s\S]*?)\n---\n([\s\S]*)$/` of `load-blog-posts`:
the text must start with `---\n`; the lazy group ends at the first
`\n---\n`; the rest (to end of input) is the body. -/
def splitFrontmatter (s : Str) : Option (Str × Str) :=
  if isPre (str "---\n") s then splitOnce (str "\n---\n") (s.drop 4) else none

/-- `value.replace(/^"|"$/g, '')` followed by the `try JSON.parse`
with the literal string kept on parse failure. -/
def metaValue (raw : Str) : Json :=
  (jsonParse (stripQuotes raw)).getD (Json.str (stripQuotes raw))

/-- One frontmatter line: `const [key, ...valueParts] = line.split(': ')`;
skipped unless the key is truthy and at least one value part exists; the
value parts are re-joined, quote-stripped, and `JSON.parse`d with the
literal string kept on parse failure. -/
def metaEntry (line : Str) : Option (Str × Json) :=
  match jsSplit (str ": ") line with
  | key :: v :: vs =>
    if key.isEmpty then none
    else some (key, metaValue (joinSep (str ": ") (v :: vs)))
  | _ => none

/-- JS object property assignment `metadata[key] = v`: overwrite in
place, append when new. -/
def objAssign (m : List (Str × Json)) (k : Str) (v : Json) : List (Str × Json) :=
  if m.any (fun e => e.1 == k) then
    m.map (fun e => if e.1 == k then (k, v) else e)
  else m ++ [(k, v)]

/-- The `frontmatter.split('\n').forEach(...)` metadata loop. -/
def parseFrontmatter (fm : Str) : List (Str × Json) :=
  (jsSplit (str "\n") fm).foldl
    (fun m line =>
      match metaEntry line with
      | some e => objAssign m e.1 e.2
      | none => m) []

def metaGet (m : List (Str × Json)) (k : Str) : Option Json :=
  (m.find? (fun e => e.1 == k)).map (fun e => e.2)

/-- `file.replace('.md', '').split('_').pop()`: strip the FIRST `.md`
occurrence, then take the text after the last underscore. -/
def idFromFilename (f : Str) : Str :=
  (jsSplit (str "_") (replaceFirst (str ".md") [] f)).getLastD []

/-- The object pushed by `load-blog-posts` for one parsed file.  Fields
other than `content`/`filePath` carry whatever `JSON.parse` produced (or
the literal string), so they are JSON values, not necessarily strings. -/
structure LoadedPost where
  id : Json
  title : Json
  content : Str
  createdAt : Json
  updatedAt : Json
  status : Json
  seoKeywords : Json
  metaDescription : Json
  filePath : Str
deriving DecidableEq, Repr

/-- Decoding of one stored file `(filename, text)` by `load-blog-posts`;
`now` models `new Date().toISOString()` in the date fallbacks.  `none`
models a file whose text does not match the frontmatter regex (the file
is skipped). -/
def decodeFile (now : Str) (file : Str × Str) : Option LoadedPost :=
  match splitFrontmatter file.2 with
  | none => none
  | some (fm, body) =>
    let m := parseFrontmatter fm
    some {
      id := jsOrElse (metaGet m (str "id")) (.str (idFromFilename file.1))
      title := jsOrElse (metaGet m (str "title")) (.str (str "Untitled"))
      content := body
      createdAt := jsOrElse (metaGet m (str "createdAt")) (.str now)
      updatedAt := jsOrElse (metaGet m (str "updatedAt")) (.str now)
      status := jsOrElse (metaGet m (str "status")) (.str (str "draft"))
      seoKeywords := jsOrElse (metaGet m (str "seoKeywords")) (.arr [])
      metaDescription := jsOrElse (metaGet m (str "metaDescription")) (.str [])
      filePath := file.1 }

/-- The `for (const file of files)` loop of `load-blog-posts`: a file
whose decode fails is skipped, the batch continues. -/
def loadPostsLoop (now : Str) : List (Str × Str) → List LoadedPost
  | [] => []
  | f :: fs =>
    match decodeFile now f with
    | some p => p :: loadPostsLoop now fs
    | none => loadPostsLoop now fs

/-- `load-blog-posts`: enumerate the `.md` files of the content
directory and decode each one, skipping failures. -/
def loadBlogPosts (now : Str) (files : List (Str × Str)) : List LoadedPost :=
  loadPostsLoop now (files.filter (fun f => strEndsWith (str ".md") f.1))

/-! ## App-level store (src/src/App.js) -/

/-- The App state visible to `saveBlogPost` / `deleteBlogPost`: the
`blogPosts` React state, the `quillpilot-posts` localStorage item
(serialized JSON text), and the durable store's files. -/
structure AppState where
  blogPosts : List Post
  ephemeralPosts : Option Str
  files : List (Str × Str)
deriving Repr

/-- `fs.writeFileSync`: overwrite an existing entry, create otherwise. -/
def writeFile (files : List (Str × Str)) (name content : Str) : List (Str × Str) :=
  if files.any (fun f => f.1 == name) then
    files.map (fun f => if f.1 == name then (name, content) else f)
  else files ++ [(name, content)]

/-- `JSON.stringify` image of one post, with the key order of
`handleNewBlogPost`'s object literal. -/
def postToJson (p : Post) : Json :=
  Json.obj [
    (str "id", .str p.id),
    (str "title", .str p.title),
    (str "content", .str p.content),
    (str "createdAt", .str p.createdAt),
    (str "updatedAt", .str p.updatedAt),
    (str "seoKeywords", .arr (p.seoKeywords.map Json.str)),
    (str "metaDescription", .str p.metaDescription),
    (str "status", .str p.status)]

/-- `JSON.stringify(updatedPosts)`, the text stored under
`quillpilot-posts`. -/
def stringifyPosts (ps : List Post) : Str :=
  jsonStringify (.arr (ps.map postToJson))

/-- The in-memory update step of `App.saveBlogPost`: replace the first
post with a matching `id` (advancing `updatedAt`), or append with fresh
`createdAt`/`updatedAt`. -/
def upsertPost (posts : List Post) (post : Post) (now : Str) : List Post :=
  match posts.findIdx? (fun p => p.id == post.id) with
  | some i => posts.set i { post with updatedAt := now }
  | none => posts ++ [{ post with createdAt := now, updatedAt := now }]

/-- Outcome of the `window.electronAPI.saveBlogPost(post)` call:
success, a returned `{success: false}` failure, or a thrown error
(caught by the surrounding `try`). -/
inductive DurableOutcome where
  | ok
  | failed (msg : Str)
  | threw (msg : Str)
deriving DecidableEq, Repr

/-- `App.saveBlogPost`: update the in-memory list, attempt the durable
write (which receives the ORIGINAL `post`, not the timestamp-refreshed
record), and unconditionally mirror the updated list into
localStorage. -/
def saveBlogPostApp (st : AppState) (post : Post) (now : Str)
    (outcome : DurableOutcome) : AppState :=
  let updatedPosts := upsertPost st.blogPosts post now
  { blogPosts := updatedPosts
    ephemeralPosts := some (stringifyPosts updatedPosts)
    files :=
      match outcome with
      | .ok => writeFile st.files (fileNameFor post) (encodePost post)
      | _ => st.files }

/-- `App.deleteBlogPost`: filter the post out of the in-memory list and
localStorage; the durable store is not touched. -/
def deleteBlogPostApp (st : AppState) (pid : Str) : AppState :=
  let updated := st.blogPosts.filter (fun p => p.id != pid)
  { blogPosts := updated
    ephemeralPosts := some (stringifyPosts updated)
    files := st.files }

/-! ## Provider and model resolution -/

inductive Provider where
  | ollama
  | openai
deriving DecidableEq, Repr

/-- The health snapshot consulted by `handleAIGenerate`
(`aiStatus.ollama_available` / `aiStatus.openai_available`). -/
structure HealthSnapshot where
  ollama_available : Bool
  openai_available : Bool
deriving DecidableEq, Repr

/-- `aiStatus[provider + '_available']`. -/
def availableOf (st : HealthSnapshot) : Provider → Bool
  | .ollama => st.ollama_available
  | .openai => st.openai_available

/-- The provider fallback of `BlogEditor.handleAIGenerate` lines
565-577: keep the selected provider when available, otherwise
`ollama_available ? 'ollama' : openai_available ? 'openai' : null`,
and `null` throws the no-provider error (modelled as `none`). -/
def resolveProvider (selected : Provider) (st : HealthSnapshot) : Option Provider :=
  if !availableOf st selected then
    if st.ollama_available then some .ollama
    else if st.openai_available then some .openai
    else none
  else some selected

/-- JS `String.prototype.includes` for a non-empty pattern. -/
def containsSub (pat s : Str) : Bool := (splitOnce pat s).isSome

/-- `preferencesService.getBestModelForProvider`: the recorded
preference when still listed, otherwise keyword defaults
(`llama3` then `mistral` for ollama, `gpt-3.5-turbo` for openai),
otherwise the first model, otherwise the empty string. -/
def getBestModelForProvider (provider : Provider) (preferred : Str)
    (availableModels : List Str) : Str :=
  if !preferred.isEmpty && availableModels.contains preferred then preferred
  else
    match provider with
    | .ollama =>
      (((availableModels.find? (fun m => containsSub (str "llama3") m)).orElse
        (fun _ => availableModels.find? (fun m => containsSub (str "mistral") m))).getD
        (availableModels.headD []))
    | .openai =>
      ((availableModels.find? (fun m => containsSub (str "gpt-3.5-turbo") m)).getD
        (availableModels.headD []))

/-- Resolution algorithm as the spec words it (section 4.2): preferred
provider when available in the snapshot, else the first available
provider in the fixed priority order local-before-cloud, else fail. -/
def specResolve (pref : Provider) (st : HealthSnapshot) : Option Provider :=
  if availableOf st pref then some pref
  else [Provider.ollama, Provider.openai].find? (availableOf st)

/-- The spec's ranked keyword defaults per provider. -/
def rankedKeywords : Provider → List Str
  | .ollama => [str "llama3", str "mistral"]
  | .openai => [str "gpt-3.5-turbo"]

/-- Model choice as the spec words it: the recorded preference when
still present in the model set, else the first model matching a ranked
keyword, else the first model, else unset. -/
def specChooseModel (provider : Provider) (recorded : Str)
    (models : List Str) : Str :=
  if !recorded.isEmpty && models.contains recorded then recorded
  else
    match (rankedKeywords provider).findSome?
        (fun kw => models.find? (fun m => containsSub kw m)) with
    | some m => m
    | none => models.headD []

/-! ## Helper lemmas for the store theorems -/

theorem set_of_getElem_eq {α : Type} :
    ∀ (l : List α) (i : Nat) (v : α) (h : i < l.length), l[i] = v → l.set i v = l := by
  intro l
  induction l with
  | nil => intro i v h; simp at h
  | cons a as ih =>
    intro i v h hv
    cases i with
    | zero =>
      simp only [List.getElem_cons_zero] at hv
      simp [List.set, hv]
    | succ j =>
      simp only [List.getElem_cons_succ] at hv
      simp only [List.set]
      rw [ih j v (by simpa using h) hv]

theorem loadPostsLoop_eq_filterMap (now : Str) :
    ∀ l : List (Str × Str), loadPostsLoop now l = l.filterMap (decodeFile now) := by
  intro l
  induction l with
  | nil => rfl
  | cons f fs ih =>
    rw [loadPostsLoop, List.filterMap_cons]
    cases h : decodeFile now f with
    | some p => rw [ih]
    | none => rw [ih]

theorem mem_loadBlogPosts {now : Str} {files : List (Str × Str)} {f : Str × Str}
    {lp : LoadedPost} (hf : f ∈ files) (hmd : strEndsWith (str ".md") f.1 = true)
    (hd : decodeFile now f = some lp) : lp ∈ loadBlogPosts now files := by
  rw [loadBlogPosts, loadPostsLoop_eq_filterMap]
  exact List.mem_filterMap.mpr ⟨f, List.mem_filter.mpr ⟨hf, hmd⟩, hd⟩

/-- Concrete documents used by the witnesses. -/
def samplePostA : Post := {
  id := str "101", title := str "Alpha", content := str "Alpha body",
  createdAt := str "2024-06-01T10:00:00.000Z",
  updatedAt := str "2024-06-01T10:00:00.000Z",
  seoKeywords := [str "alpha"], metaDescription := str "A", status := str "draft" }

def samplePostB : Post := {
  id := str "202", title := str "Beta", content := str "Beta body",
  createdAt := str "2024-06-02T10:00:00.000Z",
  updatedAt := str "2024-06-02T10:00:00.000Z",
  seoKeywords := [], metaDescription := [], status := str "published" }

/-- A re-save of `samplePostA` with edited content. -/
def samplePostA2 : Post := { samplePostA with content := str "Alpha body v2" }

/-- A stored file whose metadata block does not parse. -/
def brokenFile : Str × Str := (str "broken_9.md", str "no frontmatter here")

/-- C4. For every document and every outcome of the durable-store write
(success, returned failure, or thrown error), `saveBlogPost` still
mirrors the updated posts array into the `quillpilot-posts` localStorage
item, and that array contains a record with the saved document's id,
title and content. -/
theorem claim_C4_ephemeral_mirror_on_any_outcome (st : AppState) (post : Post)
    (now : Str) (outcome : DurableOutcome) :
    (saveBlogPostApp st post now outcome).ephemeralPosts =
      some (stringifyPosts (saveBlogPostApp st post now outcome).blogPosts) ∧
    ∃ p ∈ (saveBlogPostApp st post now outcome).blogPosts,
      p.id = post.id ∧ p.title = post.title ∧ p.content = post.content := by
  constructor
  · rfl
  · show ∃ p ∈ upsertPost st.blogPosts post now, _
    rw [upsertPost]
    cases hfind : st.blogPosts.findIdx? (fun p => p.id == post.id) with
    | some i =>
      obtain ⟨hlt, -⟩ := List.findIdx?_eq_some_iff_findIdx_eq.mp hfind
      refine ⟨{ post with updatedAt := now }, ?_, rfl, rfl, rfl⟩
      have := List.mem_set st.blogPosts i hlt { post with updatedAt := now }
      simpa using this
    | none =>
      exact ⟨{ post with createdAt := now, updatedAt := now },
        List.mem_append_right _ (List.mem_singleton.mpr rfl), rfl, rfl, rfl⟩

/-- C5. `load-blog-posts` returns the decoded documents of exactly the
`.md` files whose metadata block parses, skipping unparsable files
without aborting the batch; in particular one unparsable file between
two valid files yields exactly the two valid documents. -/
theorem claim_C5_fault_isolated_batch_load :
    (∀ (now : Str) (files : List (Str × Str)),
      loadBlogPosts now files =
        (files.filter (fun f => strEndsWith (str ".md") f.1)).filterMap
          (decodeFile now)) ∧
    decodeFile (str "NOW") brokenFile = none ∧
    (decodeFile (str "NOW") (fileNameFor samplePostA, encodePost samplePostA)).isSome ∧
    (decodeFile (str "NOW") (fileNameFor samplePostB, encodePost samplePostB)).isSome ∧
    loadBlogPosts (str "NOW")
        [(fileNameFor samplePostA, encodePost samplePostA), brokenFile,
         (fileNameFor samplePostB, encodePost samplePostB)] =
      (decodeFile (str "NOW") (fileNameFor samplePostA, encodePost samplePostA)).toList ++
      (decodeFile (str "NOW") (fileNameFor samplePostB, encodePost samplePostB)).toList := by
  refine ⟨fun now files => ?_, by decide, by decide, by decide, by decide⟩
  rw [loadBlogPosts, loadPostsLoop_eq_filterMap]

/-- C6. Provider resolution uses the preferred provider if available,
otherwise the first available provider with ollama ranked before openai,
failing only when neither is available; the model for the resolved
provider is the recorded preference if still listed, otherwise the
ranked-keyword default (llama3 then mistral for ollama, gpt-3.5-turbo
for openai), otherwise the first model, otherwise unset.  Stated as
equality with the spec-worded resolution functions. -/
theorem claim_C6_resolution_matches_spec :
    ∀ (pref : Provider) (st : HealthSnapshot) (recorded : Str) (models : List Str),
      resolveProvider pref st = specResolve pref st ∧
      ∀ prov : Provider, getBestModelForProvider prov recorded models =
        specChooseModel prov recorded models := by
  intro pref st recorded models
  constructor
  · obtain ⟨ho, hp⟩ := st
    cases pref <;> cases ho <;> cases hp <;>
      simp [resolveProvider, specResolve, availableOf]
  · intro prov
    cases prov
    · rw [getBestModelForProvider, specChooseModel]
      by_cases hpref : (!recorded.isEmpty && models.contains recorded) = true
      · rw [if_pos hpref, if_pos hpref]
      · rw [if_neg hpref, if_neg hpref]
        simp only [rankedKeywords, List.findSome?_cons]
        cases h1 : models.find? (fun m => containsSub (str "llama3") m) with
        | some m => simp [Option.orElse]
        | none =>
          cases h2 : models.find? (fun m => containsSub (str "mistral") m) with
          | some m => simp [Option.orElse, List.findSome?_cons]
          | none => simp [Option.orElse, List.findSome?_cons]
    · rw [getBestModelForProvider, specChooseModel]
      by_cases hpref : (!recorded.isEmpty && models.contains recorded) = true
      · rw [if_pos hpref, if_pos hpref]
      · rw [if_neg hpref, if_neg hpref]
        simp only [rankedKeywords, List.findSome?_cons]
        cases h1 : models.find? (fun m => containsSub (str "gpt-3.5-turbo") m) with
        | some m => simp [Option.orElse]
        | none => simp [Option.orElse, List.findSome?_cons]

/-- C7. `save` preserves uniqueness of `id`: re-saving an existing id
overwrites that record in place (same ids in the same positions, no
duplicate, `updatedAt` advanced from a value that was `≤ now` to `now`),
while a brand-new id appends a record with fresh `createdAt` and
`updatedAt`. -/
theorem claim_C7_save_preserves_id_uniqueness (posts : List Post) (post : Post)
    (now : Str) (huniq : (posts.map Post.id).Nodup)
    (hmono : ∀ p ∈ posts, strLe p.updatedAt now = true) :
    ((upsertPost posts post now).map Post.id).Nodup ∧
    ((∃ p ∈ posts, p.id = post.id) →
      (upsertPost posts post now).map Post.id = posts.map Post.id ∧
      (upsertPost posts post now).length = posts.length ∧
      ∃ i, ∃ hi : i < posts.length,
        posts[i].id = post.id ∧
        upsertPost posts post now = posts.set i { post with updatedAt := now } ∧
        strLe posts[i].updatedAt now = true) ∧
    ((∀ p ∈ posts, p.id ≠ post.id) →
      upsertPost posts post now =
        posts ++ [{ post with createdAt := now, updatedAt := now }]) := by
  cases hfind : posts.findIdx? (fun p => p.id == post.id) with
  | some i =>
    obtain ⟨hlt, hp, -⟩ := List.findIdx?_eq_some_iff_getElem.mp hfind
    have hpi : posts[i].id = post.id := by simpa using hp
    have hup : upsertPost posts post now = posts.set i { post with updatedAt := now } := by
      rw [upsertPost, hfind]
    have hmap : (upsertPost posts post now).map Post.id = posts.map Post.id := by
      rw [hup, List.map_set]
      exact set_of_getElem_eq _ i _ (by simpa using hlt)
        (by rw [List.getElem_map]; exact hpi)
    refine ⟨by rw [hmap]; exact huniq, fun _ => ⟨hmap, by rw [hup]; simp, i, hlt, hpi,
      hup, hmono posts[i] (List.getElem_mem hlt)⟩, fun hnone => ?_⟩
    exact absurd hpi (hnone posts[i] (List.getElem_mem hlt))
  | none =>
    have hfresh : ∀ p ∈ posts, p.id ≠ post.id := by
      intro p hp
      have := List.findIdx?_eq_none_iff.mp hfind p hp
      simpa using this
    have hup : upsertPost posts post now =
        posts ++ [{ post with createdAt := now, updatedAt := now }] := by
      rw [upsertPost, hfind]
    refine ⟨?_, fun hex => ?_, fun _ => hup⟩
    · rw [hup, List.map_append]
      simp only [List.map_cons, List.map_nil]
      rw [List.nodup_append]
      refine ⟨huniq, List.nodup_singleton _, ?_⟩
      intro a ha hb
      simp only [List.mem_singleton] at hb
      obtain ⟨q, hq, rfl⟩ := List.mem_map.mp ha
      exact hfresh q hq (by simpa using hb)
    · obtain ⟨p, hp, hpid⟩ := hex
      exact absurd hpid (hfresh p hp)

/-- Witness for C7: re-saving `samplePostA` with new content keeps the
single record and its id. -/
theorem claim_C7_witness :
    (upsertPost [samplePostA] samplePostA2 (str "2024-06-03T10:00:00.000Z")).map
        Post.id = [samplePostA].map Post.id :=
  ((claim_C7_save_preserves_id_uniqueness [samplePostA] samplePostA2
      (str "2024-06-03T10:00:00.000Z") (by decide) (by decide)).2.1
    ⟨samplePostA, by decide, by decide⟩).1

/-- C8. `deleteBlogPost` removes the document from the in-memory list
and the ephemeral store, leaves every other record and the durable store
unchanged, and a subsequent `load-blog-posts` still returns a document
with the deleted id. -/
theorem claim_C8_delete_skips_durable_store (st : AppState) (pid now : Str)
    (h : ∃ f ∈ st.files, strEndsWith (str ".md") f.1 = true ∧
      (decodeFile now f).map LoadedPost.id = some (Json.str pid)) :
    (∀ p ∈ (deleteBlogPostApp st pid).blogPosts, p.id ≠ pid) ∧
    (∀ p ∈ st.blogPosts, p.id ≠ pid → p ∈ (deleteBlogPostApp st pid).blogPosts) ∧
    (∀ p ∈ (deleteBlogPostApp st pid).blogPosts, p ∈ st.blogPosts) ∧
    (deleteBlogPostApp st pid).ephemeralPosts =
      some (stringifyPosts (deleteBlogPostApp st pid).blogPosts) ∧
    (deleteBlogPostApp st pid).files = st.files ∧
    ∃ lp ∈ loadBlogPosts now (deleteBlogPostApp st pid).files,
      lp.id = Json.str pid := by
  refine ⟨?_, ?_, ?_, rfl, rfl, ?_⟩
  · intro p hp
    have := (List.mem_filter.mp hp).2
    simpa using this
  · intro p hp hne
    exact List.mem_filter.mpr ⟨hp, by simpa using hne⟩
  · intro p hp
    exact (List.mem_filter.mp hp).1
  · obtain ⟨f, hf, hmd, hdec⟩ := h
    obtain ⟨lp, hlp, hid⟩ := Option.map_eq_some'.mp hdec
    exact ⟨lp, mem_loadBlogPosts hf hmd hlp, hid⟩

/-- Witness for C8: deleting `samplePostA` from a state whose durable
store holds its encoded file still leaves that file loadable. -/
theorem claim_C8_witness :
    ∃ lp ∈ loadBlogPosts (str "NOW")
        (deleteBlogPostApp
          { blogPosts := [samplePostA, samplePostB],
            ephemeralPosts := some (stringifyPosts [samplePostA, samplePostB]),
            files := [(fileNameFor samplePostA, encodePost samplePostA)] }
          (str "101")).files,
      lp.id = Json.str (str "101") :=
  (claim_C8_delete_skips_durable_store _ (str "101") (str "NOW")
    ⟨(fileNameFor samplePostA, encodePost samplePostA), by decide, by decide,
      by decide⟩).2.2.2.2.2

/-! ## Round-trip lemmas for the JSON model on plain strings -/

/-- Characters that `JSON.stringify` emits verbatim inside a string
literal and `JSON.parse` reads back verbatim. -/
def plainKeyChar (c : Char) : Bool :=
  decide (32 ≤ c.toNat) && c != '"' && c != '\\'

/-- A keyword whose characters need no escaping. -/
def plainKeyword (k : Str) : Prop := ∀ c ∈ k, plainKeyChar c = true

instance (k : Str) : Decidable (plainKeyword k) := List.decidableBAll _ k

theorem escapeChar_plain {c : Char} (h : plainKeyChar c = true) :
    escapeChar c = [c] := by
  simp only [plainKeyChar, Bool.and_eq_true, bne_iff_ne, decide_eq_true_eq] at h
  obtain ⟨⟨h32, hq⟩, hb⟩ := h
  rw [escapeChar]
  rw [if_neg hq, if_neg hb]
  rw [if_neg (by intro hc; subst hc; simp at h32),
    if_neg (by intro hc; subst hc; simp at h32),
    if_neg (by intro hc; subst hc; simp at h32),
    if_neg (by intro hc; subst hc; simp at h32),
    if_neg (by intro hc; subst hc; simp at h32),
    if_neg (by omega)]

theorem escape_flatten_plain {k : Str} (h : plainKeyword k) :
    (k.map escapeChar).flatten = k := by
  induction k with
  | nil => rfl
  | cons c r ih =>
    rw [List.map_cons, List.flatten_cons,
      escapeChar_plain (h c (List.mem_cons_self c r)),
      ih (fun x hx => h x (List.mem_cons_of_mem c hx))]
    rfl

theorem pStr_quote (r : Str) : pStr ('"' :: r) = some ([], r) := by
  rw [pStr.eq_def]
  simp

theorem pStr_plain_step {c : Char} (hq : c ≠ '"') (hb : c ≠ '\\')
    (h32 : ¬ c.toNat < 32) (r : Str) :
    pStr (c :: r) = (pStr r).map (fun p => (c :: p.1, p.2)) := by
  rw [pStr.eq_def]
  simp [hq, hb, h32]

theorem pStr_plain {k : Str} (h : plainKeyword k) :
    ∀ rest : Str, pStr (k ++ '"' :: rest) = some (k, rest) := by
  induction k with
  | nil => intro rest; rw [List.nil_append, pStr_quote]
  | cons c r ih =>
    intro rest
    have hc := h c (List.mem_cons_self c r)
    simp only [plainKeyChar, Bool.and_eq_true, bne_iff_ne, decide_eq_true_eq] at hc
    obtain ⟨⟨h32, hq⟩, hb⟩ := hc
    rw [List.cons_append, pStr_plain_step hq hb (by omega),
      ih (fun x hx => h x (List.mem_cons_of_mem c hx)) rest]
    rfl

theorem skipWs_not_ws {c : Char} (h : isWsChar c = false) (r : Str) :
    skipWs (c :: r) = c :: r := by
  rw [skipWs, h]
  simp

theorem encodeStr_plain {k : Str} (h : plainKeyword k) :
    encodeStr k = '"' :: (k ++ ['"']) := by
  rw [encodeStr, escape_flatten_plain h]
  rfl

theorem pVal_string {k : Str} (h : plainKeyword k) (f : Nat) (rest : Str) :
    pVal (f + 1) ('"' :: (k ++ '"' :: rest)) = some (.str k, rest) := by
  have hred : pVal (f + 1) ('"' :: (k ++ '"' :: rest)) =
      (pStr (k ++ '"' :: rest)).map (fun p => (Json.str p.1, p.2)) := rfl
  rw [hred, pStr_plain h]
  rfl

theorem pElems_strs :
    ∀ (kws : List Str) (f : Nat) (rest : Str), (∀ k ∈ kws, plainKeyword k) →
      kws ≠ [] → 2 * kws.length ≤ f →
      pElems f (stringifyElems (kws.map Json.str) ++ ']' :: rest) =
        some (kws.map Json.str, rest) := by
  intro kws
  induction kws with
  | nil => intro f rest _ hne; exact absurd rfl hne
  | cons k kws' ih =>
    intro f rest hplain _ hf
    have hk : plainKeyword k := hplain k (List.mem_cons_self k kws')
    match f, hf with
    | f2 + 1 + 1, hf2 =>
      cases kws' with
      | nil =>
        have hs : stringifyElems ([k].map Json.str) ++ ']' :: rest =
            '"' :: (k ++ '"' :: ']' :: rest) := by
          show jsonStringify (Json.str k) ++ ']' :: rest = _
          rw [show jsonStringify (Json.str k) = encodeStr k from rfl,
            encodeStr_plain hk]
          simp
        rw [hs]
        have hred : pElems (f2 + 1 + 1) ('"' :: (k ++ '"' :: ']' :: rest)) =
            match pVal (f2 + 1) ('"' :: (k ++ '"' :: ']' :: rest)) with
            | none => none
            | some (v, r1) =>
              match skipWs r1 with
              | ',' :: r2 =>
                (pElems (f2 + 1) r2).map (fun p => (v :: p.1, p.2))
              | ']' :: r2 => some ([v], r2)
              | _ => none := rfl
        rw [hred, pVal_string hk]
        rfl
      | cons k2 kws'' =>
        have hs : stringifyElems ((k :: k2 :: kws'').map Json.str) ++ ']' :: rest =
            '"' :: (k ++ '"' :: ',' ::
              (stringifyElems ((k2 :: kws'').map Json.str) ++ ']' :: rest)) := by
          show jsonStringify (Json.str k) ++
              ',' :: stringifyElems ((k2 :: kws'').map Json.str) ++ ']' :: rest = _
          rw [show jsonStringify (Json.str k) = encodeStr k from rfl,
            encodeStr_plain hk]
          simp
        rw [hs]
        have hred : pElems (f2 + 1 + 1)
            ('"' :: (k ++ '"' :: ',' ::
              (stringifyElems ((k2 :: kws'').map Json.str) ++ ']' :: rest))) =
            match pVal (f2 + 1) ('"' :: (k ++ '"' :: ',' ::
              (stringifyElems ((k2 :: kws'').map Json.str) ++ ']' :: rest))) with
            | none => none
            | some (v, r1) =>
              match skipWs r1 with
              | ',' :: r2 =>
                (pElems (f2 + 1) r2).map (fun p => (v :: p.1, p.2))
              | ']' :: r2 => some ([v], r2)
              | _ => none := rfl
        have h2 : (match (some (Json.str k, ',' ::
              (stringifyElems ((k2 :: kws'').map Json.str) ++ ']' :: rest)) :
              Option (Json × Str)) with
            | none => none
            | some (v, r1) =>
              match skipWs r1 with
              | ',' :: r2 =>
                (pElems (f2 + 1) r2).map (fun p => (v :: p.1, p.2))
              | ']' :: r2 => some ([v], r2)
              | _ => none) =
            (pElems (f2 + 1)
              (stringifyElems ((k2 :: kws'').map Json.str) ++ ']' :: rest)).map
              (fun p => (Json.str k :: p.1, p.2)) := rfl
        have hih := ih (f2 + 1) rest
          (fun x hx => hplain x (List.mem_cons_of_mem k hx))
          (by simp)
          (by simp only [List.length_cons] at hf2 ⊢; omega)
        rw [hred, pVal_string hk, h2, hih]
        rfl

theorem stringifyElems_length_ge :
    ∀ kws : List Str, kws ≠ [] →
      2 * kws.length ≤ (stringifyElems (kws.map Json.str)).length := by
  intro kws
  induction kws with
  | nil => intro h; exact absurd rfl h
  | cons k kws' ih =>
    intro _
    cases kws' with
    | nil =>
      show 2 * 1 ≤ (jsonStringify (Json.str k)).length
      rw [show jsonStringify (Json.str k) = encodeStr k from rfl, encodeStr]
      simp
    | cons k2 kws'' =>
      have := ih (by simp)
      show 2 * (k2 :: kws'').length + 2 ≤
        ((jsonStringify (Json.str k)) ++
          ',' :: stringifyElems ((k2 :: kws'').map Json.str)).length
      rw [show jsonStringify (Json.str k) = encodeStr k from rfl, encodeStr]
      simp only [List.length_append, List.length_cons] at this ⊢
      omega

/-- `JSON.parse` inverts `JSON.stringify` on arrays of plain strings,
the shape `save-blog-post` writes for `seoKeywords`. -/
theorem jsonParse_stringify_strArr (kws : List Str)
    (h : ∀ k ∈ kws, plainKeyword k) :
    jsonParse (jsonStringify (Json.arr (kws.map Json.str))) =
      some (Json.arr (kws.map Json.str)) := by
  cases kws with
  | nil => decide
  | cons k kws' =>
    have hk : plainKeyword k := h k (List.mem_cons_self k kws')
    have hheads : ∃ e', stringifyElems ((k :: kws').map Json.str) = '"' :: e' := by
      cases kws' with
      | nil =>
        refine ⟨k ++ ['"'], ?_⟩
        show jsonStringify (Json.str k) = _
        rw [show jsonStringify (Json.str k) = encodeStr k from rfl, encodeStr_plain hk]
      | cons k2 kws'' =>
        refine ⟨(k ++ ['"']) ++
          ',' :: stringifyElems ((k2 :: kws'').map Json.str), ?_⟩
        show jsonStringify (Json.str k) ++
          ',' :: stringifyElems ((k2 :: kws'').map Json.str) = _
        rw [show jsonStringify (Json.str k) = encodeStr k from rfl, encodeStr_plain hk]
        simp
    obtain ⟨e', he⟩ := hheads
    have hlen := stringifyElems_length_ge (k :: kws') (by simp)
    rw [he] at hlen
    have hstr : jsonStringify (Json.arr ((k :: kws').map Json.str)) =
        '[' :: ('"' :: e') ++ [']'] := by
      rw [jsonStringify, he]
    rw [hstr]
    have h1 : jsonParse ('[' :: ('"' :: e') ++ [']']) =
        match (pElems (('[' :: ('"' :: e') ++ [']']).length)
            (('"' :: e') ++ [']'])).map (fun p => (Json.arr p.1, p.2)) with
        | some (v, rest) => if skipWs rest = [] then some v else none
        | none => none := rfl
    rw [h1]
    rw [show (('"' :: e') ++ [']'] : Str) =
        stringifyElems ((k :: kws').map Json.str) ++ ']' :: [] from by rw [he]]
    rw [pElems_strs (k :: kws') _ [] h (by simp)
      (by simp only [List.length_cons, List.length_append] at hlen ⊢; omega)]
    rfl

/-! ## The frontmatter split on an encoded document -/

theorem isPre_false_of_head_ne {a b : Char} (h : a ≠ b) (p t : Str) :
    isPre (a :: p) (b :: t) = false := by
  simp only [isPre, Bool.and_eq_true_iff, Bool.and_eq_false_iff]
  exact Or.inl (beq_false_of_ne h)

/-- If no occurrence of `pat` starts strictly inside `x`, the first
occurrence in `x ++ pat ++ y` is the explicit one. -/
theorem splitOnce_first_at (pat : Str) (hpat : pat ≠ []) :
    ∀ (x y : Str),
      (∀ x₁ x₂, x = x₁ ++ x₂ → x₂ ≠ [] → isPre pat (x₂ ++ (pat ++ y)) = false) →
      splitOnce pat (x ++ (pat ++ y)) = some (x, y) := by
  intro x
  induction x with
  | nil =>
    intro y _
    simpa using splitOnce_self_append pat y hpat
  | cons c x' ihx =>
    intro y h
    have hfalse : isPre pat ((c :: x') ++ (pat ++ y)) = false :=
      h [] (c :: x') rfl (by simp)
    rw [List.cons_append] at hfalse ⊢
    rw [splitOnce, hfalse]
    simp only [Bool.false_eq_true, if_false]
    rw [ihx y (fun x₁ x₂ hx hne => h (c :: x₁) x₂ (by rw [hx]; rfl) hne)]
    rfl

/-- A nonempty newline-headed suffix of `L ++ '\n' :: rest` with
`'\n' ∉ L` is either the whole `'\n' :: rest` or lies inside `rest`. -/
theorem nl_suffix_cases {L : Str} (hL : '\n' ∉ L) (rest : Str) :
    ∀ x₁ x₂, L ++ '\n' :: rest = x₁ ++ x₂ → x₂ ≠ [] → x₂.head? = some '\n' →
      x₂ = '\n' :: rest ∨
      ∃ y₁ y₂, rest = y₁ ++ y₂ ∧ x₂ = y₂ ∧ y₂ ≠ [] ∧ y₂.head? = some '\n' := by
  intro x₁ x₂ heq hne hhead
  rcases List.append_eq_append_iff.mp heq with ⟨a', ha1, ha2⟩ | ⟨c', hc1, hc2⟩
  · cases a' with
    | nil =>
      left
      simpa using ha2.symm
    | cons w a'' =>
      right
      rw [List.cons_append] at ha2
      obtain ⟨rfl, hrest⟩ := List.cons.injEq .. |>.mp ha2
      exact ⟨a'', x₂, hrest, rfl, hne, hhead⟩
  · cases c' with
    | nil =>
      left
      simpa using hc2
    | cons w c'' =>
      exfalso
      rw [hc2] at hhead
      rw [List.cons_append] at hhead
      simp only [List.head?_cons, Option.some.injEq] at hhead
      subst hhead
      exact hL (hc1 ▸ List.mem_append_right x₁ (List.mem_cons_self _ _))

/-- A metadata value that survives the codec verbatim: no newline (the
line structure stays intact) and not parseable as JSON (the decoder
keeps the literal string). -/
def plainValue (s : Str) : Prop := '\n' ∉ s ∧ jsonParse s = none

instance (s : Str) : Decidable (plainValue s) := instDecidableAnd

/-- The fixed-field population discipline of the round-trip law: the
four scalar fields are nonempty plain values, the optional description
is plain, and keywords are escapeless strings. -/
def plainPost (p : Post) : Prop :=
  plainValue p.title ∧ p.title ≠ [] ∧
  plainValue p.createdAt ∧ p.createdAt ≠ [] ∧
  plainValue p.updatedAt ∧ p.updatedAt ≠ [] ∧
  plainValue p.status ∧ p.status ≠ [] ∧
  plainValue p.metaDescription ∧
  ∀ k ∈ p.seoKeywords, plainKeyword k

instance (p : Post) : Decidable (plainPost p) := by
  unfold plainPost
  infer_instance

theorem plain_no_nl {k : Str} (h : plainKeyword k) : '\n' ∉ k := by
  intro hmem
  exact absurd (h '\n' hmem) (by decide)

theorem no_nl_encodeStr {k : Str} (h : plainKeyword k) : '\n' ∉ encodeStr k := by
  rw [encodeStr_plain h]
  intro hmem
  rcases List.mem_cons.mp hmem with h1 | h2
  · exact absurd h1 (by decide)
  · rcases List.mem_append.mp h2 with h3 | h4
    · exact plain_no_nl h h3
    · exact absurd (List.mem_singleton.mp h4) (by decide)

theorem no_nl_stringifyElems :
    ∀ kws : List Str, (∀ k ∈ kws, plainKeyword k) →
      '\n' ∉ stringifyElems (kws.map Json.str) := by
  intro kws
  induction kws with
  | nil => intro _; simp [stringifyElems]
  | cons k kws' ih =>
    intro h
    have hk := h k (List.mem_cons_self k kws')
    cases kws' with
    | nil =>
      show '\n' ∉ jsonStringify (Json.str k)
      exact no_nl_encodeStr hk
    | cons k2 kws'' =>
      show '\n' ∉ jsonStringify (Json.str k) ++
        ',' :: stringifyElems ((k2 :: kws'').map Json.str)
      intro hmem
      rcases List.mem_append.mp hmem with h1 | h2
      · exact no_nl_encodeStr hk h1
      · rcases List.mem_cons.mp h2 with h3 | h4
        · exact absurd h3 (by decide)
        · exact ih (fun x hx => h x (List.mem_cons_of_mem k hx)) h4

theorem no_nl_stringify_strArr {kws : List Str} (h : ∀ k ∈ kws, plainKeyword k) :
    '\n' ∉ jsonStringify (Json.arr (kws.map Json.str)) := by
  rw [jsonStringify]
  intro hmem
  rcases List.mem_cons.mp hmem with h1 | h2
  · exact absurd h1 (by decide)
  · rcases List.mem_append.mp h2 with h3 | h4
    · exact no_nl_stringifyElems kws h h3
    · exact absurd (List.mem_singleton.mp h4) (by decide)

theorem no_nl_wrap {v : Str} (lit1 lit2 : Str) (h : '\n' ∉ v)
    (h1 : '\n' ∉ lit1) (h2 : '\n' ∉ lit2) : '\n' ∉ lit1 ++ v ++ lit2 := by
  intro hmem
  rcases List.mem_append.mp hmem with h3 | h4
  · rcases List.mem_append.mp h3 with h5 | h6
    · exact h1 h5
    · exact h h6
  · exact h2 h4

/-- `isPre "---\n" (d :: t) = false` whenever `d ≠ '-'`. -/
theorem isPre_dashes_false {d : Char} (hne : d ≠ '-') (t : Str) :
    isPre (str "---\n") (d :: t) = false := by
  rw [show (str "---\n" : Str) = '-' :: str "--\n" from rfl]
  exact isPre_false_of_head_ne (fun h => hne h.symm) _ _

theorem fmCreatedLine_cons (p : Post) (q : Str) :
    fmCreatedLine p ++ q =
      'c' :: (str "reatedAt: \"" ++ (p.createdAt ++ (str "\"" ++ q))) := by
  rw [fmCreatedLine,
    show (str "createdAt: \"" : Str) = 'c' :: str "reatedAt: \"" from rfl]
  simp [List.append_assoc]

theorem fmUpdatedLine_cons (p : Post) (q : Str) :
    fmUpdatedLine p ++ q =
      'u' :: (str "pdatedAt: \"" ++ (p.updatedAt ++ (str "\"" ++ q))) := by
  rw [fmUpdatedLine,
    show (str "updatedAt: \"" : Str) = 'u' :: str "pdatedAt: \"" from rfl]
  simp [List.append_assoc]

theorem fmStatusLine_cons (p : Post) (q : Str) :
    fmStatusLine p ++ q =
      's' :: (str "tatus: \"" ++ (p.status ++ (str "\"" ++ q))) := by
  rw [fmStatusLine, show (str "status: \"" : Str) = 's' :: str "tatus: \"" from rfl]
  simp [List.append_assoc]

theorem fmKeywordsLine_cons (p : Post) (q : Str) :
    fmKeywordsLine p ++ q =
      's' :: (str "eoKeywords: " ++
        (jsonStringify (Json.arr (p.seoKeywords.map Json.str)) ++ q)) := by
  rw [fmKeywordsLine,
    show (str "seoKeywords: " : Str) = 's' :: str "eoKeywords: " from rfl]
  simp [List.append_assoc]

theorem fmMetaDescLine_cons (p : Post) (q : Str) :
    fmMetaDescLine p ++ q =
      'm' :: (str "etaDescription: \"" ++ (p.metaDescription ++ (str "\"" ++ q))) := by
  rw [fmMetaDescLine,
    show (str "metaDescription: \"" : Str) = 'm' :: str "etaDescription: \"" from rfl]
  simp [List.append_assoc]

/-- The right-nested view of the six frontmatter lines. -/
theorem frontmatterOf_nested (p : Post) :
    frontmatterOf p =
      fmTitleLine p ++ '\n' :: (fmCreatedLine p ++ '\n' :: (fmUpdatedLine p ++
        '\n' :: (fmStatusLine p ++ '\n' :: (fmKeywordsLine p ++
        '\n' :: fmMetaDescLine p)))) := by
  rw [frontmatterOf, show (str "\n" : Str) = ['\n'] from rfl]
  simp [List.append_assoc]

/-- No occurrence of the closing delimiter `\n---\n` starts inside the
frontmatter block of an encoded post with newline-free values: every
newline inside it is followed by the next `key: value` line, whose first
character is not `-`. -/
theorem fm_no_occurrence (p : Post) (Y : Str)
    (ht : '\n' ∉ p.title) (hcr : '\n' ∉ p.createdAt) (hup : '\n' ∉ p.updatedAt)
    (hst : '\n' ∉ p.status) (hmd : '\n' ∉ p.metaDescription)
    (hkw : ∀ k ∈ p.seoKeywords, plainKeyword k) :
    ∀ x₁ x₂, frontmatterOf p = x₁ ++ x₂ → x₂ ≠ [] →
      isPre (str "\n---\n") (x₂ ++ (str "\n---\n" ++ Y)) = false := by
  have hL1 : '\n' ∉ fmTitleLine p := no_nl_wrap _ _ ht (by decide) (by decide)
  have hL2 : '\n' ∉ fmCreatedLine p := no_nl_wrap _ _ hcr (by decide) (by decide)
  have hL3 : '\n' ∉ fmUpdatedLine p := no_nl_wrap _ _ hup (by decide) (by decide)
  have hL4 : '\n' ∉ fmStatusLine p := no_nl_wrap _ _ hst (by decide) (by decide)
  have hL5 : '\n' ∉ fmKeywordsLine p := by
    rw [fmKeywordsLine]
    intro hmem
    rcases List.mem_append.mp hmem with h1 | h2
    · exact absurd h1 (by decide)
    · exact no_nl_stringify_strArr hkw h2
  have hL6 : '\n' ∉ fmMetaDescLine p := no_nl_wrap _ _ hmd (by decide) (by decide)
  intro x₁ x₂ heq hne
  by_contra hcontra
  have htrue : isPre (str "\n---\n") (x₂ ++ (str "\n---\n" ++ Y)) = true := by
    simpa using hcontra
  clear hcontra
  obtain ⟨c, t, rfl⟩ : ∃ c t, x₂ = c :: t := by
    cases x₂ with
    | nil => exact absurd rfl hne
    | cons c t => exact ⟨c, t, rfl⟩
  have hc0 : c = '\n' := by
    rw [show (str "\n---\n" : Str) = '\n' :: str "---\n" from rfl,
      List.cons_append] at htrue
    simp only [isPre, Bool.and_eq_true, beq_iff_eq] at htrue
    exact htrue.1.symm
  subst hc0
  have hhead : ((('\n' :: t) : Str)).head? = some '\n' := rfl
  -- the nested tails of the frontmatter block
  have hfalse1 : isPre (str "\n---\n")
      (('\n' :: (fmCreatedLine p ++ '\n' :: (fmUpdatedLine p ++ '\n' ::
        (fmStatusLine p ++ '\n' :: (fmKeywordsLine p ++ '\n' ::
        fmMetaDescLine p))))) ++ (str "\n---\n" ++ Y)) = false := by
    rw [List.cons_append, show (str "\n---\n" : Str) = '\n' :: str "---\n" from rfl]
    simp only [isPre, beq_self_eq_true, Bool.true_and]
    decide
  have hfalse2 : isPre (str "\n---\n")
      (('\n' :: (fmUpdatedLine p ++ '\n' :: (fmStatusLine p ++ '\n' ::
        (fmKeywordsLine p ++ '\n' :: fmMetaDescLine p)))) ++
        (str "\n---\n" ++ Y)) = false := by
    rw [List.cons_append, show (str "\n---\n" : Str) = '\n' :: str "---\n" from rfl]
    simp only [isPre, beq_self_eq_true, Bool.true_and]
    decide
  have hfalse3 : isPre (str "\n---\n")
      (('\n' :: (fmStatusLine p ++ '\n' :: (fmKeywordsLine p ++ '\n' ::
        fmMetaDescLine p))) ++ (str "\n---\n" ++ Y)) = false := by
    rw [List.cons_append, show (str "\n---\n" : Str) = '\n' :: str "---\n" from rfl]
    simp only [isPre, beq_self_eq_true, Bool.true_and]
    decide
  have hfalse4 : isPre (str "\n---\n")
      (('\n' :: (fmKeywordsLine p ++ '\n' :: fmMetaDescLine p)) ++
        (str "\n---\n" ++ Y)) = false := by
    rw [List.cons_append, show (str "\n---\n" : Str) = '\n' :: str "---\n" from rfl]
    simp only [isPre, beq_self_eq_true, Bool.true_and]
    decide
  have hfalse5 : isPre (str "\n---\n")
      (('\n' :: fmMetaDescLine p) ++ (str "\n---\n" ++ Y)) = false := by
    rw [List.cons_append, show (str "\n---\n" : Str) = '\n' :: str "---\n" from rfl]
    simp only [isPre, beq_self_eq_true, Bool.true_and]
    decide
  rw [frontmatterOf_nested] at heq
  rcases nl_suffix_cases hL1 _ x₁ _ heq hne hhead with hcase | ⟨a₁, a₂, hres1, hx1, hne1, hh1⟩
  · rw [hcase] at htrue
    rw [hfalse1] at htrue
    exact Bool.false_ne_true htrue
  · rw [← hx1] at hres1
    rcases nl_suffix_cases hL2 _ a₁ _ hres1 hne hhead with hcase | ⟨b₁, b₂, hres2, hx2, hne2, hh2⟩
    · rw [hcase] at htrue
      rw [hfalse2] at htrue
      exact Bool.false_ne_true htrue
    · rw [← hx2] at hres2
      rcases nl_suffix_cases hL3 _ b₁ _ hres2 hne hhead with hcase | ⟨c₁, c₂, hres3, hx3, hne3, hh3⟩
      · rw [hcase] at htrue
        rw [hfalse3] at htrue
        exact Bool.false_ne_true htrue
      · rw [← hx3] at hres3
        rcases nl_suffix_cases hL4 _ c₁ _ hres3 hne hhead with hcase | ⟨d₁, d₂, hres4, hx4, hne4, hh4⟩
        · rw [hcase] at htrue
          rw [hfalse4] at htrue
          exact Bool.false_ne_true htrue
        · rw [← hx4] at hres4
          rcases nl_suffix_cases hL5 _ d₁ _ hres4 hne hhead with hcase | ⟨e₁, e₂, hres5, hx5, hne5, hh5⟩
          · rw [hcase] at htrue
            rw [hfalse5] at htrue
            exact Bool.false_ne_true htrue
          · rw [← hx5] at hres5
            refine hL6 ?_
            rw [hres5]
            exact List.mem_append_right e₁ (List.mem_cons_self '\n' t)

/-- On an encoded post with newline-free values, the frontmatter regex
splits the file back into the six metadata lines and the body (which
keeps the blank separator line and the trailing newline). -/
theorem splitFrontmatter_encode (p : Post)
    (ht : '\n' ∉ p.title) (hcr : '\n' ∉ p.createdAt) (hup : '\n' ∉ p.updatedAt)
    (hst : '\n' ∉ p.status) (hmd : '\n' ∉ p.metaDescription)
    (hkw : ∀ k ∈ p.seoKeywords, plainKeyword k) :
    splitFrontmatter (encodePost p) =
      some (frontmatterOf p, str "\n" ++ p.content ++ str "\n") := by
  have henc : encodePost p = str "---\n" ++ (frontmatterOf p ++
      (str "\n---\n" ++ (str "\n" ++ p.content ++ str "\n"))) := by
    rw [encodePost]
    simp [List.append_assoc]
  rw [splitFrontmatter, henc, if_pos (isPre_append_self _ _)]
  rw [show (str "---\n" ++ (frontmatterOf p ++ (str "\n---\n" ++
      (str "\n" ++ p.content ++ str "\n")))).drop 4 =
      frontmatterOf p ++ (str "\n---\n" ++ (str "\n" ++ p.content ++ str "\n"))
    from rfl]
  exact splitOnce_first_at (str "\n---\n") (by decide) (frontmatterOf p)
    (str "\n" ++ p.content ++ str "\n")
    (fm_no_occurrence p _ ht hcr hup hst hmd hkw)

/-! ## Metadata line decoding on an encoded post -/

theorem stripQuotes_wrap (t : Str) : stripQuotes ('"' :: (t ++ ['"'])) = t := by
  simp [stripQuotes, List.getLast?_concat]

theorem stripQuotes_stringify_arr (es : List Json) :
    stripQuotes (jsonStringify (Json.arr es)) = jsonStringify (Json.arr es) := by
  rw [jsonStringify]
  have hlast : (('[' :: (stringifyElems es ++ [']'])) : Str).getLast? = some ']' := by
    rw [show ('[' :: (stringifyElems es ++ [']']) : Str) =
      ('[' :: stringifyElems es) ++ [']'] from by simp, List.getLast?_concat]
  simp [stripQuotes, hlast]

theorem metaValue_quoted {t : Str} (h : jsonParse t = none) :
    metaValue ('"' :: (t ++ ['"'])) = Json.str t := by
  rw [metaValue, stripQuotes_wrap, h]
  rfl

theorem metaValue_stringify_strArr (kws : List Str) (h : ∀ k ∈ kws, plainKeyword k) :
    metaValue (jsonStringify (Json.arr (kws.map Json.str))) =
      Json.arr (kws.map Json.str) := by
  rw [metaValue, stripQuotes_stringify_arr, jsonParse_stringify_strArr kws h]
  rfl

/-- `metaEntry` on a well-formed `key: value` line with a colon-free
nonempty key. -/
theorem metaEntry_at (key v : Str) (hkey : ':' ∉ key) (hne : key.isEmpty = false) :
    metaEntry (key ++ (str ": " ++ v)) = some (key, metaValue v) := by
  have hsplit : jsSplit (str ": ") (key ++ (str ": " ++ v)) =
      key :: jsSplit (str ": ") v := by
    have := @jsSplit_append ':' (str " ") key v hkey
    rw [show ((key ++ ':' :: str " ") ++ v : Str) = key ++ (str ": " ++ v) from by
      rw [show (str ": " : Str) = ':' :: str " " from rfl]
      simp] at this
    exact this
  cases hv : jsSplit (str ": ") v with
  | nil => exact absurd hv (jsSplit_never_nil _ _)
  | cons v₁ vs =>
    rw [hv] at hsplit
    rw [metaEntry, hsplit]
    have hjoin : joinSep (str ": ") (v₁ :: vs) = v := by
      rw [← hv, joinSep_jsSplit]
    rw [show (match key :: v₁ :: vs with
        | key :: v :: vs =>
          if key.isEmpty then none
          else some (key, metaValue (joinSep (str ": ") (v :: vs)))
        | _ => (none : Option (Str × Json))) =
        if key.isEmpty then none
        else some (key, metaValue (joinSep (str ": ") (v₁ :: vs))) from rfl]
    rw [hne, hjoin]
    simp

/-- Splitting the encoded frontmatter block on newline recovers the six
template lines. -/
theorem jsSplit_nl_frontmatter (p : Post)
    (ht : '\n' ∉ p.title) (hcr : '\n' ∉ p.createdAt) (hup : '\n' ∉ p.updatedAt)
    (hst : '\n' ∉ p.status) (hmd : '\n' ∉ p.metaDescription)
    (hkw : ∀ k ∈ p.seoKeywords, plainKeyword k) :
    jsSplit (str "\n") (frontmatterOf p) =
      [fmTitleLine p, fmCreatedLine p, fmUpdatedLine p, fmStatusLine p,
       fmKeywordsLine p, fmMetaDescLine p] := by
  have hL1 : '\n' ∉ fmTitleLine p := no_nl_wrap _ _ ht (by decide) (by decide)
  have hL2 : '\n' ∉ fmCreatedLine p := no_nl_wrap _ _ hcr (by decide) (by decide)
  have hL3 : '\n' ∉ fmUpdatedLine p := no_nl_wrap _ _ hup (by decide) (by decide)
  have hL4 : '\n' ∉ fmStatusLine p := no_nl_wrap _ _ hst (by decide) (by decide)
  have hL5 : '\n' ∉ fmKeywordsLine p := by
    rw [fmKeywordsLine]
    intro hmem
    rcases List.mem_append.mp hmem with h1 | h2
    · exact absurd h1 (by decide)
    · exact no_nl_stringify_strArr hkw h2
  have hL6 : '\n' ∉ fmMetaDescLine p := no_nl_wrap _ _ hmd (by decide) (by decide)
  rw [show (str "\n" : Str) = ['\n'] from rfl, jsSplit_singleton,
    frontmatterOf_nested, charSplit_append _ hL1, charSplit_append _ hL2,
    charSplit_append _ hL3, charSplit_append _ hL4, charSplit_append _ hL5,
    charSplit_of_not_mem hL6]

/-- `parseFrontmatter` on an encoded post recovers the six metadata
fields, with `seoKeywords` as a parsed array and the rest as literal
strings. -/
theorem parseFrontmatter_encode (p : Post)
    (ht : plainValue p.title) (hcr : plainValue p.createdAt)
    (hup : plainValue p.updatedAt) (hst : plainValue p.status)
    (hmd : plainValue p.metaDescription)
    (hkw : ∀ k ∈ p.seoKeywords, plainKeyword k) :
    parseFrontmatter (frontmatterOf p) =
      [(str "title", Json.str p.title),
       (str "createdAt", Json.str p.createdAt),
       (str "updatedAt", Json.str p.updatedAt),
       (str "status", Json.str p.status),
       (str "seoKeywords", Json.arr (p.seoKeywords.map Json.str)),
       (str "metaDescription", Json.str p.metaDescription)] := by
  obtain ⟨htn, htj⟩ := ht
  obtain ⟨hcn, hcj⟩ := hcr
  obtain ⟨hun, huj⟩ := hup
  obtain ⟨hsn, hsj⟩ := hst
  obtain ⟨hmn, hmj⟩ := hmd
  have e1 : metaEntry (fmTitleLine p) = some (str "title", Json.str p.title) := by
    rw [show fmTitleLine p =
        str "title" ++ (str ": " ++ ('"' :: (p.title ++ ['"']))) from rfl,
      metaEntry_at _ _ (by decide) (by decide), metaValue_quoted htj]
  have e2 : metaEntry (fmCreatedLine p) =
      some (str "createdAt", Json.str p.createdAt) := by
    rw [show fmCreatedLine p =
        str "createdAt" ++ (str ": " ++ ('"' :: (p.createdAt ++ ['"']))) from rfl,
      metaEntry_at _ _ (by decide) (by decide), metaValue_quoted hcj]
  have e3 : metaEntry (fmUpdatedLine p) =
      some (str "updatedAt", Json.str p.updatedAt) := by
    rw [show fmUpdatedLine p =
        str "updatedAt" ++ (str ": " ++ ('"' :: (p.updatedAt ++ ['"']))) from rfl,
      metaEntry_at _ _ (by decide) (by decide), metaValue_quoted huj]
  have e4 : metaEntry (fmStatusLine p) =
      some (str "status", Json.str p.status) := by
    rw [show fmStatusLine p =
        str "status" ++ (str ": " ++ ('"' :: (p.status ++ ['"']))) from rfl,
      metaEntry_at _ _ (by decide) (by decide), metaValue_quoted hsj]
  have e5 : metaEntry (fmKeywordsLine p) =
      some (str "seoKeywords", Json.arr (p.seoKeywords.map Json.str)) := by
    rw [show fmKeywordsLine p = str "seoKeywords" ++ (str ": " ++
        jsonStringify (Json.arr (p.seoKeywords.map Json.str))) from rfl,
      metaEntry_at _ _ (by decide) (by decide),
      metaValue_stringify_strArr _ hkw]
  have e6 : metaEntry (fmMetaDescLine p) =
      some (str "metaDescription", Json.str p.metaDescription) := by
    rw [show fmMetaDescLine p = str "metaDescription" ++
        (str ": " ++ ('"' :: (p.metaDescription ++ ['"']))) from rfl,
      metaEntry_at _ _ (by decide) (by decide), metaValue_quoted hmj]
  rw [parseFrontmatter, jsSplit_nl_frontmatter p htn hcn hun hsn hmn hkw,
    List.foldl_cons, e1, List.foldl_cons, e2, List.foldl_cons, e3,
    List.foldl_cons, e4, List.foldl_cons, e5, List.foldl_cons, e6,
    List.foldl_nil]
  rfl

/-- Decoding an encoded plain post recovers every metadata field; the
body comes back with the blank separator line and trailing newline
attached, and the id is reconstructed from the filename. -/
theorem decodeFile_encodePost (p : Post) (hp : plainPost p) (now fname : Str) :
    decodeFile now (fname, encodePost p) = some {
      id := Json.str (idFromFilename fname),
      title := Json.str p.title,
      content := str "\n" ++ p.content ++ str "\n",
      createdAt := Json.str p.createdAt,
      updatedAt := Json.str p.updatedAt,
      status := Json.str p.status,
      seoKeywords := Json.arr (p.seoKeywords.map Json.str),
      metaDescription := Json.str p.metaDescription,
      filePath := fname } := by
  obtain ⟨ht, hte, hcr, hce, hup, hue, hst, hse, hmd, hkw⟩ := hp
  rw [decodeFile]
  rw [show ((fname, encodePost p).2 : Str) = encodePost p from rfl]
  rw [splitFrontmatter_encode p ht.1 hcr.1 hup.1 hst.1 hmd.1 hkw]
  rw [show (match (some (frontmatterOf p, str "\n" ++ p.content ++ str "\n") :
        Option (Str × Str)) with
      | none => none
      | some (fm, body) => some {
          id := jsOrElse (metaGet (parseFrontmatter fm) (str "id"))
            (.str (idFromFilename (fname, encodePost p).1)),
          title := jsOrElse (metaGet (parseFrontmatter fm) (str "title"))
            (.str (str "Untitled")),
          content := body,
          createdAt := jsOrElse (metaGet (parseFrontmatter fm) (str "createdAt"))
            (.str now),
          updatedAt := jsOrElse (metaGet (parseFrontmatter fm) (str "updatedAt"))
            (.str now),
          status := jsOrElse (metaGet (parseFrontmatter fm) (str "status"))
            (.str (str "draft")),
          seoKeywords := jsOrElse (metaGet (parseFrontmatter fm) (str "seoKeywords"))
            (.arr []),
          metaDescription := jsOrElse
            (metaGet (parseFrontmatter fm) (str "metaDescription")) (.str []),
          filePath := (fname, encodePost p).1 } : Option LoadedPost) =
      some {
        id := jsOrElse (metaGet (parseFrontmatter (frontmatterOf p)) (str "id"))
          (.str (idFromFilename fname)),
        title := jsOrElse
          (metaGet (parseFrontmatter (frontmatterOf p)) (str "title"))
          (.str (str "Untitled")),
        content := str "\n" ++ p.content ++ str "\n",
        createdAt := jsOrElse
          (metaGet (parseFrontmatter (frontmatterOf p)) (str "createdAt"))
          (.str now),
        updatedAt := jsOrElse
          (metaGet (parseFrontmatter (frontmatterOf p)) (str "updatedAt"))
          (.str now),
        status := jsOrElse
          (metaGet (parseFrontmatter (frontmatterOf p)) (str "status"))
          (.str (str "draft")),
        seoKeywords := jsOrElse
          (metaGet (parseFrontmatter (frontmatterOf p)) (str "seoKeywords"))
          (.arr []),
        metaDescription := jsOrElse
          (metaGet (parseFrontmatter (frontmatterOf p)) (str "metaDescription"))
          (.str []),
        filePath := fname } from rfl]
  rw [parseFrontmatter_encode p ht hcr hup hst hmd hkw]
  simp only [Option.some.injEq, LoadedPost.mk.injEq]
  refine ⟨?_, ?_, ?_, ?_, ?_, ?_, ?_, ?_, ?_⟩ <;> try trivial
  · show jsOrElse (some (Json.str p.title)) (.str (str "Untitled")) = Json.str p.title
    rw [jsOrElse, if_pos (by simpa [jsTruthy] using hte)]
  · show jsOrElse (some (Json.str p.createdAt)) (.str now) = Json.str p.createdAt
    rw [jsOrElse, if_pos (by simpa [jsTruthy] using hce)]
  · show jsOrElse (some (Json.str p.updatedAt)) (.str now) = Json.str p.updatedAt
    rw [jsOrElse, if_pos (by simpa [jsTruthy] using hue)]
  · show jsOrElse (some (Json.str p.status)) (.str (str "draft")) = Json.str p.status
    rw [jsOrElse, if_pos (by simpa [jsTruthy] using hse)]
  · show jsOrElse (some (Json.str p.metaDescription)) (.str []) =
      Json.str p.metaDescription
    cases hm : p.metaDescription with
    | nil => rfl
    | cons a l => rw [jsOrElse, if_pos (by simp [jsTruthy])]

/-- C3 (counterexample). The claim that `decode(encode(d))` equals `d`
in the body field (modulo empty-value normalization) is false at a
concrete document: the template writes a blank line after the closing
delimiter and a trailing newline, and the decoder keeps both, so the
decoded body is `"\nAlpha body\n"` while the saved body was
`"Alpha body"`. -/
theorem claim_C3_counterexample :
    (decodeFile (str "NOW") (fileNameFor samplePostA, encodePost samplePostA)).map
        LoadedPost.content = some (str "\nAlpha body\n") ∧
    samplePostA.content = str "Alpha body" ∧
    (decodeFile (str "NOW") (fileNameFor samplePostA, encodePost samplePostA)).map
        LoadedPost.content ≠ some samplePostA.content := by
  refine ⟨by decide, by decide, by decide⟩

/-- C3 (amended). For every Document whose fixed metadata fields are
populated with plain values (no newline, not JSON-parseable, the four
scalar fields nonempty, keywords escapeless), decoding the encoded file
text yields a Document equal to it in title, createdAt, updatedAt,
status, keywords and summary, while the body comes back as
`"\n" ++ body ++ "\n"` — the blank separator line and the trailing
newline of the template are folded into the decoded body. -/
theorem claim_C3_roundtrip_modulo_body_padding (p : Post) (hp : plainPost p)
    (now fname : Str) :
    decodeFile now (fname, encodePost p) = some {
      id := Json.str (idFromFilename fname),
      title := Json.str p.title,
      content := str "\n" ++ p.content ++ str "\n",
      createdAt := Json.str p.createdAt,
      updatedAt := Json.str p.updatedAt,
      status := Json.str p.status,
      seoKeywords := Json.arr (p.seoKeywords.map Json.str),
      metaDescription := Json.str p.metaDescription,
      filePath := fname } :=
  decodeFile_encodePost p hp now fname

/-- Witness for C3 (amended): the concrete document `samplePostA`
decodes back with every metadata field intact and the padded body. -/
theorem claim_C3_roundtrip_modulo_body_padding_witness :
    decodeFile (str "NOW") (fileNameFor samplePostA, encodePost samplePostA) =
      some {
        id := Json.str (idFromFilename (fileNameFor samplePostA)),
        title := Json.str samplePostA.title,
        content := str "\n" ++ samplePostA.content ++ str "\n",
        createdAt := Json.str samplePostA.createdAt,
        updatedAt := Json.str samplePostA.updatedAt,
        status := Json.str samplePostA.status,
        seoKeywords := Json.arr (samplePostA.seoKeywords.map Json.str),
        metaDescription := Json.str samplePostA.metaDescription,
        filePath := fileNameFor samplePostA } :=
  claim_C3_roundtrip_modulo_body_padding samplePostA (by decide) (str "NOW")
    (fileNameFor samplePostA)

theorem writeFile_mem_self (files : List (Str × Str)) (name content : Str) :
    (name, content) ∈ writeFile files name content := by
  rw [writeFile]
  by_cases h : files.any (fun f => f.1 == name) = true
  · rw [if_pos h]
    obtain ⟨f, hf, hfn⟩ := List.any_eq_true.mp h
    refine List.mem_map.mpr ⟨f, hf, ?_⟩
    rw [if_pos hfn]
  · rw [if_neg h]
    exact List.mem_append_right _ (List.mem_singleton.mpr rfl)

/-- C9. Re-saving an existing id hands the durable store the original
`post` object, so the file on disk carries the caller-supplied
`updatedAt` verbatim, while the ephemeral copy's `updatedAt` is advanced
to the save time; when the save time differs from the caller's value the
two copies disagree. -/
theorem claim_C9_updatedAt_divergence (st : AppState) (post : Post)
    (now now' : Str) (hp : plainPost post)
    (huniq : (st.blogPosts.map Post.id).Nodup)
    (hex : ∃ q ∈ st.blogPosts, q.id = post.id)
    (hne : now ≠ post.updatedAt) :
    (fileNameFor post, encodePost post) ∈ (saveBlogPostApp st post now .ok).files ∧
    (decodeFile now' (fileNameFor post, encodePost post)).map LoadedPost.updatedAt =
      some (Json.str post.updatedAt) ∧
    (∀ q ∈ (saveBlogPostApp st post now .ok).blogPosts,
      q.id = post.id → q.updatedAt = now) ∧
    Json.str post.updatedAt ≠ Json.str now := by
  refine ⟨writeFile_mem_self st.files _ _, ?_, ?_, ?_⟩
  · rw [decodeFile_encodePost post hp now' (fileNameFor post)]
    rfl
  · intro q hq hqid
    show q.updatedAt = now
    have hsome : (st.blogPosts.findIdx? (fun p => p.id == post.id)).isSome := by
      rw [List.findIdx?_isSome, List.any_eq_true]
      obtain ⟨r, hr, hrid⟩ := hex
      exact ⟨r, hr, by simpa using hrid⟩
    obtain ⟨i, hfind⟩ := Option.isSome_iff_exists.mp hsome
    obtain ⟨hlt, hip, -⟩ := List.findIdx?_eq_some_iff_getElem.mp hfind
    have hpi : st.blogPosts[i].id = post.id := by simpa using hip
    have hq' : q ∈ (st.blogPosts.set i { post with updatedAt := now }) := by
      have : (saveBlogPostApp st post now .ok).blogPosts =
          st.blogPosts.set i { post with updatedAt := now } := by
        show upsertPost st.blogPosts post now = _
        rw [upsertPost, hfind]
      rw [this] at hq
      exact hq
    obtain ⟨j, hj, hjq⟩ := List.mem_iff_getElem.mp hq'
    by_cases hij : i = j
    · subst hij
      rw [List.getElem_set_self] at hjq
      rw [← hjq]
    · rw [List.getElem_set_ne hij] at hjq
      exfalso
      have hjlt : j < st.blogPosts.length := by simpa using hj
      have hilt2 : i < (st.blogPosts.map Post.id).length := by simpa using hlt
      have hjlt2 : j < (st.blogPosts.map Post.id).length := by simpa using hjlt
      have hmapij : (st.blogPosts.map Post.id)[i] =
          (st.blogPosts.map Post.id)[j] := by
        rw [List.getElem_map, List.getElem_map, hpi, hjq, hqid]
      exact hij (huniq.getElem_inj_iff.mp hmapij)
  · intro h
    exact hne (by injection h with h'; exact h'.symm)

/-- Witness for C9: re-saving `samplePostA` with new content at a later
time leaves `updatedAt` in the durable file at the old value while the
in-memory record advances. -/
theorem claim_C9_witness :
    (fileNameFor samplePostA2, encodePost samplePostA2) ∈
      (saveBlogPostApp
        { blogPosts := [samplePostA], ephemeralPosts := none, files := [] }
        samplePostA2 (str "2024-06-03T10:00:00.000Z") .ok).files ∧
    (decodeFile (str "NOW") (fileNameFor samplePostA2, encodePost samplePostA2)).map
        LoadedPost.updatedAt = some (Json.str samplePostA2.updatedAt) ∧
    (∀ q ∈ (saveBlogPostApp
        { blogPosts := [samplePostA], ephemeralPosts := none, files := [] }
        samplePostA2 (str "2024-06-03T10:00:00.000Z") .ok).blogPosts,
      q.id = samplePostA2.id → q.updatedAt = str "2024-06-03T10:00:00.000Z") ∧
    Json.str samplePostA2.updatedAt ≠ Json.str (str "2024-06-03T10:00:00.000Z") :=
  claim_C9_updatedAt_divergence
    { blogPosts := [samplePostA], ephemeralPosts := none, files := [] }
    samplePostA2 (str "2024-06-03T10:00:00.000Z") (str "NOW") (by decide)
    (by decide) ⟨samplePostA, by decide, by decide⟩ (by decide)

/-! ## Filename-based id reconstruction (C10) -/

theorem ofNat_ne_dot {m : Nat} (h1 : 97 ≤ m) (h2 : m ≤ 122) :
    Char.ofNat m ≠ '.' := by
  interval_cases m <;> decide

/-- The slug part of a filename never contains a dot: sanitization maps
every character to a lower-cased alphanumeric or `_`. -/
theorem dot_not_mem_sanitizeTitle (t : Str) : '.' ∉ sanitizeTitle t := by
  rw [sanitizeTitle]
  by_cases hempty :
      (t.map fun c => if c.isAlpha || c.isDigit then c.toLower else '_').isEmpty
  · rw [if_pos hempty]
    decide
  · rw [if_neg hempty]
    intro hmem
    obtain ⟨c, -, hc⟩ := List.mem_map.mp hmem
    by_cases halnum : (c.isAlpha || c.isDigit) = true
    · rw [if_pos halnum] at hc
      rw [Char.toLower] at hc
      by_cases hrange : 65 ≤ c.toNat ∧ c.toNat ≤ 90
      · rw [if_pos hrange] at hc
        exact ofNat_ne_dot (by omega) (by omega) hc
      · rw [if_neg hrange] at hc
        subst hc
        exact absurd halnum (by decide)
    · rw [if_neg halnum] at hc
      exact absurd hc (by decide)

theorem splitOnce_isSome_of_parts {pat : Str} (hpat : pat ≠ []) :
    ∀ (a b : Str), (splitOnce pat (a ++ (pat ++ b))).isSome = true := by
  intro a
  induction a with
  | nil =>
    intro b
    rw [List.nil_append, splitOnce_self_append pat b hpat]
    rfl
  | cons x a' ih =>
    intro b
    rw [List.cons_append, splitOnce]
    by_cases hpre : isPre pat (x :: (a' ++ (pat ++ b))) = true
    · rw [if_pos hpre]
      rfl
    · rw [if_neg hpre]
      have := ih b
      cases h : splitOnce pat (a' ++ (pat ++ b)) with
      | none => rw [h] at this; simp at this
      | some p => simp [h]

/-- The first `.md` occurrence in a generated filename is the extension,
provided the id itself contains no `.md`. -/
theorem splitOnce_md_filename (S id : Str) (hdot : '.' ∉ S)
    (hmd : splitOnce (str ".md") id = none) :
    splitOnce (str ".md") ((S ++ ('_' :: id)) ++ (str ".md" ++ [])) =
      some (S ++ ('_' :: id), []) := by
  apply splitOnce_first_at (str ".md") (by decide)
  intro x₁ x₂ heq hne
  by_contra hcontra
  have htrue : isPre (str ".md") (x₂ ++ (str ".md" ++ [])) = true := by
    simpa using hcontra
  clear hcontra
  obtain ⟨c, t, rfl⟩ : ∃ c t, x₂ = c :: t := by
    cases x₂ with
    | nil => exact absurd rfl hne
    | cons c t => exact ⟨c, t, rfl⟩
  have hc0 : c = '.' := by
    rw [show (str ".md" : Str) = '.' :: str "md" from rfl, List.cons_append] at htrue
    simp only [isPre, Bool.and_eq_true, beq_iff_eq] at htrue
    exact htrue.1.symm
  subst hc0
  rcases List.append_eq_append_iff.mp heq with ⟨a', ha1, ha2⟩ | ⟨c', hc1, hc2⟩
  · cases a' with
    | nil =>
      simp only [List.nil_append] at ha2
      injection ha2 with h1 h2
      exact absurd h1 (by decide)
    | cons w a'' =>
      rw [List.cons_append] at ha2
      obtain ⟨-, hid⟩ := List.cons.injEq .. |>.mp ha2
      cases t with
      | nil => exact absurd htrue (by decide)
      | cons c2 t' =>
        cases t' with
        | nil =>
          rw [show (str ".md" : Str) = '.' :: 'm' :: 'd' :: [] from rfl] at htrue
          simp only [List.cons_append, List.nil_append, isPre,
            Bool.and_eq_true, beq_iff_eq] at htrue
          obtain ⟨-, -, hd, -⟩ := htrue
          exact absurd hd (by decide)
        | cons c3 t'' =>
          rw [show (str ".md" : Str) = '.' :: 'm' :: 'd' :: [] from rfl] at htrue
          simp only [List.cons_append, isPre, Bool.and_eq_true, beq_iff_eq] at htrue
          obtain ⟨-, hm2, hd2, -⟩ := htrue
          subst hm2
          subst hd2
          have : (splitOnce (str ".md") id).isSome = true := by
            have := @splitOnce_isSome_of_parts (str ".md") (by decide) a'' t''
            rw [show (a'' ++ (str ".md" ++ t'') : Str) =
              a'' ++ '.' :: 'm' :: 'd' :: t'' from rfl] at this
            rw [← hid] at this
            exact this
          rw [hmd] at this
          exact absurd this (by decide)
  · cases c' with
    | nil =>
      simp only [List.nil_append] at hc2
      injection hc2 with h1 h2
      exact absurd h1 (by decide)
    | cons w c'' =>
      rw [List.cons_append] at hc2
      obtain ⟨hw, -⟩ := List.cons.injEq .. |>.mp hc2
      exact hdot (hc1 ▸ List.mem_append_right x₁ (hw ▸ List.mem_cons_self w c''))

theorem getLastD_charSplit_length_lt {c : Char} :
    ∀ s : Str, c ∈ s → ∀ d : Str, ((charSplit c s).getLastD d).length < s.length := by
  intro s
  induction s with
  | nil => intro h; simp at h
  | cons x r ih =>
    intro hmem d
    rw [charSplit]
    by_cases hx : x = c
    · rw [if_pos hx]
      cases hq : charSplit c r with
      | nil => exact absurd hq (charSplit_never_nil c r)
      | cons l ls =>
        by_cases hcr : c ∈ r
        · have := ih hcr d
          rw [hq] at this
          simp only [List.getLastD_cons] at this ⊢
          simp only [List.length_cons]
          omega
        · have hr : charSplit c r = [r] := charSplit_of_not_mem hcr
          rw [hq] at hr
          obtain ⟨rfl, rfl⟩ := List.cons.injEq .. |>.mp hr
          simp only [List.getLastD_cons, List.getLastD_nil, List.length_cons]
          omega
    · rw [if_neg hx]
      have hcr : c ∈ r := by
        rcases List.mem_cons.mp hmem with h1 | h2
        · exact absurd h1.symm hx
        · exact h2
      cases hq : charSplit c r with
      | nil => exact absurd hq (charSplit_never_nil c r)
      | cons l ls =>
        cases ls with
        | nil =>
          exfalso
          obtain ⟨s1, s2, rfl⟩ := List.append_of_mem hcr
          have h2 := @two_le_length_charSplit_append c s2 s1
          rw [hq] at h2
          simp at h2
        | cons l2 ls2 =>
          have := ih hcr d
          rw [hq] at this
          simp only [List.getLastD_cons] at this ⊢
          simp only [List.length_cons]
          omega

def samplePostDotId : Post := { samplePostA with id := str "x.mdy" }

/-- C10 (counterexample). The claim "a document's id survives a
save/load round trip exactly when the id contains no underscore" is
false: the id `x.mdy` contains no underscore, yet
`file.replace('.md','')` strips the FIRST `.md` occurrence — here the
one inside the id — so the reloaded id is `xy.md`. -/
theorem claim_C10_counterexample :
    '_' ∉ samplePostDotId.id ∧
    (decodeFile (str "T") (fileNameFor samplePostDotId,
        encodePost samplePostDotId)).map LoadedPost.id =
      some (Json.str (str "xy.md")) ∧
    Json.str (str "xy.md") ≠ Json.str samplePostDotId.id := by
  decide

/-- C10 (amended). `save-blog-post` writes no `id` line into the
frontmatter, and on reload the id is reconstructed from the filename:
for every plain document whose id does not contain the substring
`.md`, the decoded id is exactly `idFromFilename` of the written
filename, and that reconstruction returns the original id precisely
when the id contains no underscore (otherwise only the part after the
id's last underscore survives). -/
theorem claim_C10_id_roundtrip (p : Post) (now : Str) (hp : plainPost p)
    (hmd : containsSub (str ".md") p.id = false) :
    ((decodeFile now (fileNameFor p, encodePost p)).map LoadedPost.id =
      some (Json.str (idFromFilename (fileNameFor p)))) ∧
    (idFromFilename (fileNameFor p) = p.id ↔ '_' ∉ p.id) := by
  have hS : '.' ∉ sanitizeTitle p.title := dot_not_mem_sanitizeTitle p.title
  have hmd' : splitOnce (str ".md") p.id = none := by
    rw [containsSub] at hmd
    cases h : splitOnce (str ".md") p.id with
    | none => rfl
    | some v => rw [h] at hmd; simp at hmd
  have hgroup : fileNameFor p =
      (sanitizeTitle p.title ++ ('_' :: p.id)) ++ (str ".md" ++ ([] : Str)) := by
    rw [fileNameFor, List.append_nil]
    rw [show (str "_" : Str) = ['_'] from rfl]
    simp [List.append_assoc]
  have hsplit := splitOnce_md_filename (sanitizeTitle p.title) p.id hS hmd'
  have hrf : replaceFirst (str ".md") [] (fileNameFor p) =
      sanitizeTitle p.title ++ ('_' :: p.id) := by
    rw [replaceFirst, hgroup, hsplit]
    simp
  have hid : idFromFilename (fileNameFor p) = (charSplit '_' p.id).getLastD [] := by
    rw [idFromFilename, hrf, show (str "_" : Str) = ['_'] from rfl,
      jsSplit_singleton, getLastD_charSplit_append]
  refine ⟨?_, ?_⟩
  · rw [decodeFile_encodePost p hp now (fileNameFor p)]
    rfl
  · rw [hid]
    constructor
    · intro he hin
      have hlt := getLastD_charSplit_length_lt p.id hin ([] : Str)
      rw [he] at hlt
      omega
    · intro hnin
      rw [charSplit_of_not_mem hnin]
      rfl

/-- Witness for C10 (amended): `samplePostA` (id `101`, underscore-free
and `.md`-free) decodes to an id equal to the filename reconstruction,
which recovers `101`. -/
theorem claim_C10_id_roundtrip_witness :
    (plainPost samplePostA ∧ containsSub (str ".md") samplePostA.id = false) ∧
    (((decodeFile (str "T") (fileNameFor samplePostA,
        encodePost samplePostA)).map LoadedPost.id =
      some (Json.str (idFromFilename (fileNameFor samplePostA)))) ∧
    (idFromFilename (fileNameFor samplePostA) = samplePostA.id ↔
      '_' ∉ samplePostA.id)) :=
  ⟨⟨by decide, by decide⟩,
    claim_C10_id_roundtrip samplePostA (str "T") (by decide) (by decide)⟩

end QuillPilot
